import Mathlib

/-!
# Bounded ring queue `lfq.c`: single-threaded semantics

A shallow embedding of `src/lfq.c` (functions `lfq_create`, `lfq_enqueue`,
`lfq_dequeue`) read as sequential code: every shared read returns the current
content of memory and every compare-and-swap is the atomic
"compare, then store" on the current content.

* `unsigned long`, `size_t` and `void *` are 64-bit words (LP64): values are
  natural numbers and every C addition is reduced modulo `WORD = 2 ^ 64`.
* The 128-bit slot word `__uint128_t`, which the code reads through the
  `element_t` overlay, is the pair `(ptr, ref)`.
* `NULL` is `0`.
* The `for (;;)` loops run on fuel: one unit of fuel is one iteration.
-/

namespace Lfq

/-- Number of values of a 64-bit machine word. -/
def WORD : Nat := 2 ^ 64

/-- The C struct `element_t`: payload pointer and stamp of one slot. -/
structure element_t where
  ptr : Nat
  ref : Nat
deriving DecidableEq, Repr

/-- The C struct `struct _lfq_t`. The slot array `e` is `none` when the
pointer stored by `lfq_create` is `NULL`. -/
structure lfq_t where
  depth : Nat
  e : Option (List element_t)
  rear : Nat
  front : Nat
deriving DecidableEq, Repr

/-- Outcome of one iteration of a `for (;;)` body. -/
inductive Step where
  | ret (v : Nat) (q : lfq_t)
  | cont (q : lfq_t)
  | trap
deriving DecidableEq, Repr

/-- Outcome of a call: a returned value with the memory it leaves, undefined
behaviour (modulo by zero, access through a null or out-of-range slot
pointer), or fuel exhausted before any `return`. -/
inductive Res where
  | ret (v : Nat) (q : lfq_t)
  | trap
  | spin
deriving DecidableEq, Repr

/-- The C function `lfq_create`; the two flags say whether `malloc` and
`calloc` succeed. `none` is the `NULL` handle. -/
def lfq_create (malloc_ok calloc_ok : Bool) (depth : Nat) : Option lfq_t :=
  if malloc_ok then
    some { depth := depth, rear := 0, front := 0,
           e := if calloc_ok then some (List.replicate depth ⟨0, 0⟩) else none }
  else none

/-- Read of `q->e[cursor % q->depth]`. -/
def slot (q : lfq_t) (cursor : Nat) : Option element_t :=
  if q.depth = 0 then none
  else match q.e with
    | none => none
    | some a => a[cursor % q.depth]?

/-- The call `__sync_bool_compare_and_swap(&q->e[cursor % q->depth], o, n)`. -/
def cas_slot (q : lfq_t) (cursor : Nat) (o n : element_t) : Option (Bool × lfq_t) :=
  if q.depth = 0 then none
  else match q.e with
    | none => none
    | some a =>
      match a[cursor % q.depth]? with
      | none => none
      | some cur =>
        if cur = o then some (true, { q with e := some (a.set (cursor % q.depth) n) })
        else some (false, q)

/-- The call `__sync_bool_compare_and_swap(&q->rear, o, n)`, memory after it. -/
def cas_rear (q : lfq_t) (o n : Nat) : lfq_t :=
  if q.rear = o then { q with rear := n } else q

/-- The call `__sync_bool_compare_and_swap(&q->front, o, n)`, memory after it. -/
def cas_front (q : lfq_t) (o n : Nat) : lfq_t :=
  if q.front = o then { q with front := n } else q

/-- One iteration of the loop of `lfq_enqueue` (lines 66 to 92). -/
def enqueue_iter (q : lfq_t) (data : Nat) : Step :=
  let rear := q.rear
  match slot q rear with
  | none => Step.trap
  | some old =>
    let front := q.front
    if rear ≠ q.rear then Step.cont q
    else if rear = (q.front + q.depth) % WORD then
      match slot q front with
      | none => Step.trap
      | some cur =>
        if cur.ptr ≠ 0 ∧ front = q.front then Step.ret 0 q
        else Step.cont (cas_front q front ((front + 1) % WORD))
    else if old.ptr = 0 then
      match cas_slot q rear old ⟨data, (old.ref + 1) % WORD⟩ with
      | none => Step.trap
      | some (true, q1) => Step.ret 1 (cas_rear q1 rear ((rear + 1) % WORD))
      | some (false, q1) => Step.cont q1
    else
      match slot q rear with
      | none => Step.trap
      | some cur =>
        if cur.ptr ≠ 0 then Step.cont (cas_rear q rear ((rear + 1) % WORD))
        else Step.cont q

/-- The C function `lfq_enqueue`, with `fuel` loop iterations available. -/
def lfq_enqueue : Nat → lfq_t → Nat → Res
  | 0, _, _ => Res.spin
  | fuel + 1, q, data =>
    match enqueue_iter q data with
    | Step.ret v q1 => Res.ret v q1
    | Step.cont q1 => lfq_enqueue fuel q1 data
    | Step.trap => Res.trap

/-- One iteration of the loop of `lfq_dequeue` (lines 103 to 129). -/
def dequeue_iter (q : lfq_t) : Step :=
  let front := q.front
  match slot q front with
  | none => Step.trap
  | some old =>
    let rear := q.rear
    if front ≠ q.front then Step.cont q
    else if front = q.rear then
      match slot q rear with
      | none => Step.trap
      | some cur =>
        if cur.ptr ≠ 0 ∧ rear = q.rear then Step.ret 0 q
        else Step.cont (cas_rear q rear ((rear + 1) % WORD))
    else if old.ptr ≠ 0 then
      match cas_slot q front old ⟨0, (old.ref + 1) % WORD⟩ with
      | none => Step.trap
      | some (true, q1) => Step.ret old.ptr (cas_front q1 front ((front + 1) % WORD))
      | some (false, q1) => Step.cont q1
    else
      match slot q front with
      | none => Step.trap
      | some cur =>
        if cur.ptr = 0 then Step.cont (cas_front q front ((front + 1) % WORD))
        else Step.cont q

/-- The C function `lfq_dequeue`, with `fuel` loop iterations available. -/
def lfq_dequeue : Nat → lfq_t → Res
  | 0, _ => Res.spin
  | fuel + 1, q =>
    match dequeue_iter q with
    | Step.ret v q1 => Res.ret v q1
    | Step.cont q1 => lfq_dequeue fuel q1
    | Step.trap => Res.trap

/-- A call made by the single client thread. -/
inductive Op where
  | enqueue (data : Nat)
  | dequeue
deriving DecidableEq, Repr

/-- One call, each loop bounded by `fuel` iterations. -/
def call (fuel : Nat) (q : lfq_t) : Op → Res
  | Op.enqueue data => lfq_enqueue fuel q data
  | Op.dequeue => lfq_dequeue fuel q

/-- A sequence of calls run back to back by one thread; the result is the list
of returned values and the final memory, or `none` as soon as a call does not
return within `fuel` iterations or traps. -/
def exec (fuel : Nat) : lfq_t → List Op → Option (List Nat × lfq_t)
  | q, [] => some ([], q)
  | q, op :: ops =>
    match call fuel q op with
    | Res.ret v q1 =>
      match exec fuel q1 ops with
      | some (rs, q2) => some (v :: rs, q2)
      | none => none
    | _ => none

/-- Payloads handed to the enqueue calls of a call sequence, in call order. -/
def payloads : List Op → List Nat
  | [] => []
  | Op.enqueue data :: ops => data :: payloads ops
  | Op.dequeue :: ops => payloads ops

/-- Payloads of the enqueue calls that returned 1, in call order. -/
def accepted : List Op → List Nat → List Nat
  | Op.enqueue data :: ops, r :: rs =>
    if r = 1 then data :: accepted ops rs else accepted ops rs
  | Op.dequeue :: ops, _ :: rs => accepted ops rs
  | _, _ => []

/-- Non-NULL values returned by the dequeue calls, in call order. -/
def dequeued : List Op → List Nat → List Nat
  | Op.dequeue :: ops, r :: rs =>
    if r = 0 then dequeued ops rs else r :: dequeued ops rs
  | Op.enqueue _ :: ops, _ :: rs => dequeued ops rs
  | _, _ => []

/-- The slot holds a payload: its pointer is not `NULL`. -/
def has_payload (s : element_t) : Bool := decide (s.ptr ≠ 0)

/-- Number of slots of the array that hold a payload. -/
def occupied (q : lfq_t) : Nat :=
  match q.e with
  | none => 0
  | some a => a.countP has_payload

/-- The alternating call sequence enqueue `p`, dequeue, for each `p` of `ps`. -/
def pairs : List Nat → List Op
  | [] => []
  | p :: ps => Op.enqueue p :: Op.dequeue :: pairs ps

/-- Abstract bounded FIFO of the specification, one call: `enqueue` appends
and answers 1 unless the list already has `cap` payloads (answer 0, list
unchanged); `dequeue` removes and answers the head, or answers ABSENT (0) on
the empty list. -/
def fifo_step (cap : Nat) (l : List Nat) : Op → Nat × List Nat
  | Op.enqueue data => if l.length < cap then (1, l ++ [data]) else (0, l)
  | Op.dequeue =>
    match l with
    | [] => (0, [])
    | x :: t => (x, t)

/-- Answers of the abstract bounded FIFO to a call sequence. -/
def fifo_run (cap : Nat) : List Nat → List Op → List Nat
  | _, [] => []
  | l, op :: ops => (fifo_step cap l op).1 :: fifo_run cap (fifo_step cap l op).2 ops

/-- Content of the abstract bounded FIFO after a call sequence. -/
def fifo_final (cap : Nat) : List Nat → List Op → List Nat
  | l, [] => l
  | l, op :: ops => fifo_final cap (fifo_step cap l op).2 ops

/-- The call is a dequeue that meets the empty abstract FIFO. -/
def fifo_stuck (l : List Nat) : Op → Bool
  | Op.dequeue => l.isEmpty
  | Op.enqueue _ => false

/-- No dequeue of the call sequence meets the empty abstract FIFO. -/
def fifo_live (cap : Nat) : List Nat → List Op → Bool
  | _, [] => true
  | l, op :: ops => !fifo_stuck l op && fifo_live cap (fifo_step cap l op).2 ops

/-- Growth of the abstract FIFO by one call: 1 for an accepted enqueue. -/
def fifo_gain (cap : Nat) (l : List Nat) : Op → Nat
  | Op.enqueue _ => if l.length < cap then 1 else 0
  | Op.dequeue => 0

/-- Number of enqueue calls of the sequence that the abstract FIFO accepts. -/
def fifo_accepts (cap : Nat) : List Nat → List Op → Nat
  | _, [] => 0
  | l, op :: ops => fifo_gain cap l op + fifo_accepts cap (fifo_step cap l op).2 ops

/-- Representation relation between the memory `q` and the FIFO content `l`.
`R` and `F` are the numbers of accepted enqueues and of completed dequeues,
not reduced modulo `WORD`: the cursors are their residues, the payloads of `l`
sit in the slots `F % depth, (F + 1) % depth, ...` and every other slot is
empty. The last conjunct says that no cursor has passed `WORD` unless `depth`
divides `WORD`. -/
def Abs (q : lfq_t) (R F : Nat) (l : List Nat) : Prop :=
  0 < q.depth ∧ q.depth < WORD ∧
  q.rear = R % WORD ∧ q.front = F % WORD ∧
  R = F + l.length ∧ l.length ≤ q.depth ∧ (∀ x ∈ l, x ≠ 0) ∧
  (q.depth ∣ WORD ∨ R ≤ WORD) ∧
  ∃ a, q.e = some a ∧ a.length = q.depth ∧
    a.countP has_payload = l.length ∧
    ∀ j, j < q.depth → ∃ s, a[(F + j) % q.depth]? = some s ∧ s.ptr = l.getD j 0

/-- States reached from `lfq_create(depth)` by the call sequence `ops` (all
payloads non-NULL), every call returning; `rs` are the returned values. -/
def Reached (depth : Nat) (ops : List Op) (rs : List Nat) (q : lfq_t) : Prop :=
  1 ≤ depth ∧ depth < WORD ∧ (∀ p ∈ payloads ops, p ≠ 0) ∧
  ∃ fuel q0, lfq_create true true depth = some q0 ∧ exec fuel q0 ops = some (rs, q)

/-- Cursor wraparound is out of play: either `depth` divides `WORD`, or fewer
than `WORD` enqueue calls have been made. -/
def NoWrap (depth : Nat) (ops : List Op) : Prop :=
  depth ∣ WORD ∨ (payloads ops).length < WORD

/-- Number of slots of the array whose payload is `NULL`. -/
def vacant (q : lfq_t) : Nat :=
  match q.e with
  | none => 0
  | some a => a.countP (fun s => decide (s.ptr = 0))

/-! ## Interleaved execution

Several threads run `lfq_enqueue` and `lfq_dequeue` on one queue. A step of
the system is one shared-memory access of one thread (a read of `rear`, of
`front`, of a slot or of a slot's pointer, or one compare-and-swap), or the
entry of an idle thread into a call, which touches no memory. Accesses are
sequentially consistent. -/

/-- Program points of a thread: `idle` outside any call, otherwise the next
shared access it will make. The `e_` points are those of `lfq_enqueue` (lines
66 to 90), the `d_` points those of `lfq_dequeue` (lines 103 to 127). -/
inductive Pc where
  | idle
  | e_rear
  | e_slot
  | e_front
  | e_recheck
  | e_full
  | e_head
  | e_headfront
  | e_help
  | e_store
  | e_advance
  | e_tail
  | e_skip
  | d_front
  | d_slot
  | d_rear
  | d_recheck
  | d_empty
  | d_tail
  | d_tailrear
  | d_help
  | d_take
  | d_advance
  | d_head
  | d_skip
deriving DecidableEq, Repr

/-- Private state of a thread: its program point and the locals `data`,
`rear`, `front` and `_o` (here `old`) of the call it is in. -/
structure thread_t where
  pc : Pc
  data : Nat
  rear : Nat
  front : Nat
  old : element_t
deriving DecidableEq, Repr

/-- A thread outside any call. -/
def idle_thread : thread_t := ⟨Pc.idle, 0, 0, 0, ⟨0, 0⟩⟩

/-- What the scheduler asks of a thread: enter `lfq_enqueue(q, data)`, enter
`lfq_dequeue(q)`, or make the next shared access of the call it is in. -/
inductive Act where
  | enqueue (data : Nat)
  | dequeue
  | step
deriving DecidableEq, Repr

/-- One step of a thread on the shared memory `q`. `none` when the request is
not enabled (entering a call while in one, stepping while idle) or when the
access is undefined behaviour. A `return` puts the thread back to
`idle_thread`. -/
def thread_step (q : lfq_t) (t : thread_t) (act : Act) : Option (lfq_t × thread_t) :=
  match act with
  | Act.enqueue data =>
    if t.pc = Pc.idle then some (q, { idle_thread with pc := Pc.e_rear, data := data })
    else none
  | Act.dequeue =>
    if t.pc = Pc.idle then some (q, { idle_thread with pc := Pc.d_front }) else none
  | Act.step =>
    match t.pc with
    | Pc.idle => none
    | Pc.e_rear => some (q, { t with rear := q.rear, pc := Pc.e_slot })
    | Pc.e_slot =>
      match slot q t.rear with
      | none => none
      | some o => some (q, { t with old := o, pc := Pc.e_front })
    | Pc.e_front => some (q, { t with front := q.front, pc := Pc.e_recheck })
    | Pc.e_recheck =>
      if t.rear ≠ q.rear then some (q, { t with pc := Pc.e_rear })
      else some (q, { t with pc := Pc.e_full })
    | Pc.e_full =>
      if t.rear = (q.front + q.depth) % WORD then some (q, { t with pc := Pc.e_head })
      else if t.old.ptr = 0 then some (q, { t with pc := Pc.e_store })
      else some (q, { t with pc := Pc.e_tail })
    | Pc.e_head =>
      match slot q t.front with
      | none => none
      | some cur =>
        if cur.ptr ≠ 0 then some (q, { t with pc := Pc.e_headfront })
        else some (q, { t with pc := Pc.e_help })
    | Pc.e_headfront =>
      if t.front = q.front then some (q, idle_thread)
      else some (q, { t with pc := Pc.e_help })
    | Pc.e_help =>
      some (cas_front q t.front ((t.front + 1) % WORD), { t with pc := Pc.e_rear })
    | Pc.e_store =>
      match cas_slot q t.rear t.old ⟨t.data, (t.old.ref + 1) % WORD⟩ with
      | none => none
      | some (true, q1) => some (q1, { t with pc := Pc.e_advance })
      | some (false, q1) => some (q1, { t with pc := Pc.e_rear })
    | Pc.e_advance => some (cas_rear q t.rear ((t.rear + 1) % WORD), idle_thread)
    | Pc.e_tail =>
      match slot q t.rear with
      | none => none
      | some cur =>
        if cur.ptr ≠ 0 then some (q, { t with pc := Pc.e_skip })
        else some (q, { t with pc := Pc.e_rear })
    | Pc.e_skip =>
      some (cas_rear q t.rear ((t.rear + 1) % WORD), { t with pc := Pc.e_rear })
    | Pc.d_front => some (q, { t with front := q.front, pc := Pc.d_slot })
    | Pc.d_slot =>
      match slot q t.front with
      | none => none
      | some o => some (q, { t with old := o, pc := Pc.d_rear })
    | Pc.d_rear => some (q, { t with rear := q.rear, pc := Pc.d_recheck })
    | Pc.d_recheck =>
      if t.front ≠ q.front then some (q, { t with pc := Pc.d_front })
      else some (q, { t with pc := Pc.d_empty })
    | Pc.d_empty =>
      if t.front = q.rear then some (q, { t with pc := Pc.d_tail })
      else if t.old.ptr ≠ 0 then some (q, { t with pc := Pc.d_take })
      else some (q, { t with pc := Pc.d_head })
    | Pc.d_tail =>
      match slot q t.rear with
      | none => none
      | some cur =>
        if cur.ptr ≠ 0 then some (q, { t with pc := Pc.d_tailrear })
        else some (q, { t with pc := Pc.d_help })
    | Pc.d_tailrear =>
      if t.rear = q.rear then some (q, idle_thread)
      else some (q, { t with pc := Pc.d_help })
    | Pc.d_help =>
      some (cas_rear q t.rear ((t.rear + 1) % WORD), { t with pc := Pc.d_front })
    | Pc.d_take =>
      match cas_slot q t.front t.old ⟨0, (t.old.ref + 1) % WORD⟩ with
      | none => none
      | some (true, q1) => some (q1, { t with pc := Pc.d_advance })
      | some (false, q1) => some (q1, { t with pc := Pc.d_front })
    | Pc.d_advance => some (cas_front q t.front ((t.front + 1) % WORD), idle_thread)
    | Pc.d_head =>
      match slot q t.front with
      | none => none
      | some cur =>
        if cur.ptr = 0 then some (q, { t with pc := Pc.d_skip })
        else some (q, { t with pc := Pc.d_front })
    | Pc.d_skip =>
      some (cas_front q t.front ((t.front + 1) % WORD), { t with pc := Pc.d_front })

/-- The shared queue and the private states of the threads, numbered by
naturals. -/
structure sys_t where
  q : lfq_t
  threads : Nat → thread_t

/-- All threads idle on the memory `q`. -/
def sys_start (q : lfq_t) : sys_t := ⟨q, fun _ => idle_thread⟩

/-- One step of the system: thread `tid` acts. -/
def sys_step (s : sys_t) (tid : Nat) (act : Act) : Option sys_t :=
  match thread_step s.q (s.threads tid) act with
  | none => none
  | some (q1, t1) => some ⟨q1, Function.update s.threads tid t1⟩

/-- An interleaving: the scheduled steps taken one after the other. -/
def sys_run : sys_t → List (Nat × Act) → Option sys_t
  | s, [] => some s
  | s, (tid, act) :: rest =>
    match sys_step s tid act with
    | none => none
    | some s1 => sys_run s1 rest

/-- Program points a thread can be at while every slot is empty and no thread
enqueues: idle, or inside `lfq_dequeue` away from its two `return`s and from
the slot compare-and-swap, with an empty slot in `old` wherever `old` is about
to be tested. -/
def spin_ok (t : thread_t) : Prop :=
  match t.pc with
  | Pc.idle => True
  | Pc.d_front => True
  | Pc.d_slot => True
  | Pc.d_rear => t.old.ptr = 0
  | Pc.d_recheck => t.old.ptr = 0
  | Pc.d_empty => t.old.ptr = 0
  | Pc.d_tail => True
  | Pc.d_help => True
  | Pc.d_head => True
  | Pc.d_skip => True
  | _ => False

/-- Invariant of the interleaved system while no thread enqueues on a queue
with no payload: the slot array is in place with every payload `NULL`, and
every thread satisfies `spin_ok`. -/
def sys_spin (s : sys_t) : Prop :=
  1 ≤ s.q.depth ∧ (∃ a, s.q.e = some a ∧ a.length = s.q.depth ∧ ∀ x ∈ a, x.ptr = 0) ∧
  ∀ tid, spin_ok (s.threads tid)

/-- The cursor window in 64-bit arithmetic: both cursors are machine words and
the difference `rear - front`, taken modulo `WORD`, is at most `depth`. -/
def window (q : lfq_t) : Prop :=
  1 ≤ q.depth ∧ q.rear < WORD ∧ q.front < WORD ∧
  (q.rear + WORD - q.front) % WORD ≤ q.depth

/-! ## Single iterations -/

theorem slot_of_array {q : lfq_t} {a : List element_t} (he : q.e = some a)
    (hd : 0 < q.depth) (c : Nat) : slot q c = a[c % q.depth]? := by
  simp [slot, he, Nat.pos_iff_ne_zero.mp hd]

theorem enqueue_iter_store {q : lfq_t} {a : List element_t} {old : element_t}
    (he : q.e = some a) (hd : 0 < q.depth) (data : Nat)
    (hnf : q.rear ≠ (q.front + q.depth) % WORD)
    (hold : a[q.rear % q.depth]? = some old) (hp : old.ptr = 0) :
    enqueue_iter q data = Step.ret 1
      { q with e := some (a.set (q.rear % q.depth) ⟨data, (old.ref + 1) % WORD⟩),
               rear := (q.rear + 1) % WORD } := by
  simp [enqueue_iter, slot, cas_slot, cas_rear, he, Nat.pos_iff_ne_zero.mp hd, hnf, hold, hp]

theorem enqueue_iter_full {q : lfq_t} {a : List element_t} {cur : element_t}
    (he : q.e = some a) (hlen : a.length = q.depth) (hd : 0 < q.depth) (data : Nat)
    (hf : q.rear = (q.front + q.depth) % WORD)
    (hcur : a[q.front % q.depth]? = some cur) (hp : cur.ptr ≠ 0) :
    enqueue_iter q data = Step.ret 0 q := by
  have hi : q.rear % q.depth < a.length := by rw [hlen]; exact Nat.mod_lt _ hd
  have h0 : a[q.rear % q.depth]? = some a[q.rear % q.depth] := List.getElem?_eq_getElem hi
  simp only [enqueue_iter, slot_of_array he hd, h0, hcur]
  simp [← hf, hp]

theorem enqueue_iter_skip {q : lfq_t} {a : List element_t} {old : element_t}
    (he : q.e = some a) (hd : 0 < q.depth) (data : Nat)
    (hnf : q.rear ≠ (q.front + q.depth) % WORD)
    (hold : a[q.rear % q.depth]? = some old) (hp : old.ptr ≠ 0) :
    enqueue_iter q data = Step.cont { q with rear := (q.rear + 1) % WORD } := by
  simp [enqueue_iter, slot, cas_rear, he, Nat.pos_iff_ne_zero.mp hd, hnf, hold, hp]

theorem dequeue_iter_take {q : lfq_t} {a : List element_t} {old : element_t}
    (he : q.e = some a) (hd : 0 < q.depth)
    (hne : q.front ≠ q.rear)
    (hold : a[q.front % q.depth]? = some old) (hp : old.ptr ≠ 0) :
    dequeue_iter q = Step.ret old.ptr
      { q with e := some (a.set (q.front % q.depth) ⟨0, (old.ref + 1) % WORD⟩),
               front := (q.front + 1) % WORD } := by
  simp [dequeue_iter, slot, cas_slot, cas_front, he, Nat.pos_iff_ne_zero.mp hd, hne, hold, hp]

theorem dequeue_iter_skip {q : lfq_t} {a : List element_t} {old : element_t}
    (he : q.e = some a) (hd : 0 < q.depth)
    (hne : q.front ≠ q.rear)
    (hold : a[q.front % q.depth]? = some old) (hp : old.ptr = 0) :
    dequeue_iter q = Step.cont { q with front := (q.front + 1) % WORD } := by
  simp [dequeue_iter, slot, cas_front, he, Nat.pos_iff_ne_zero.mp hd, hne, hold, hp]

/-- With no payload in any slot an iteration of `lfq_dequeue` never returns:
it moves a cursor and goes round again. -/
theorem dequeue_iter_all_null {q : lfq_t} {a : List element_t}
    (he : q.e = some a) (hlen : a.length = q.depth) (hd : 0 < q.depth)
    (hnull : ∀ s ∈ a, s.ptr = 0) :
    ∃ q1, dequeue_iter q = Step.cont q1 ∧ q1.e = some a ∧ q1.depth = q.depth := by
  have hget : ∀ c, ∃ s, a[c % q.depth]? = some s ∧ s.ptr = 0 := by
    intro c
    have hi : c % q.depth < a.length := by rw [hlen]; exact Nat.mod_lt _ hd
    exact ⟨a[c % q.depth], List.getElem?_eq_getElem hi, hnull _ (List.getElem_mem _)⟩
  obtain ⟨s, hs, hs0⟩ := hget q.front
  obtain ⟨t, ht, ht0⟩ := hget q.rear
  by_cases hfr : q.front = q.rear
  · refine ⟨{ q with rear := (q.rear + 1) % WORD }, ?_, he, rfl⟩
    simp [dequeue_iter, slot, cas_rear, he, Nat.pos_iff_ne_zero.mp hd, hfr, ht, ht0]
  · exact ⟨_, dequeue_iter_skip he hd hfr hs hs0, he, rfl⟩

/-- The loop of `lfq_dequeue` never returns when no slot holds a payload,
however many iterations it is given. -/
theorem dequeue_all_null_spins (fuel : Nat) : ∀ (q : lfq_t) (a : List element_t),
    q.e = some a → a.length = q.depth → 0 < q.depth → (∀ s ∈ a, s.ptr = 0) →
    lfq_dequeue fuel q = Res.spin := by
  induction fuel with
  | zero => intro q a _ _ _ _; rfl
  | succ n ih =>
    intro q a he hlen hd hnull
    obtain ⟨q1, hq1, he1, hd1⟩ := dequeue_iter_all_null he hlen hd hnull
    simp only [lfq_dequeue, hq1]
    exact ih q1 a he1 (hd1 ▸ hlen) (hd1 ▸ hd) hnull

/-! ## Arithmetic of the cursors -/

theorem cursor_index {d R : Nat} (h : d ∣ WORD ∨ R < WORD) : R % WORD % d = R % d := by
  rcases h with h | h
  · exact Nat.mod_mod_of_dvd R h
  · rw [Nat.mod_eq_of_lt h]

theorem index_inj {d F j k : Nat} (hj : j < d) (hk : k < d)
    (h : (F + j) % d = (F + k) % d) : j = k := by
  have h1 : j ≡ k [MOD d] := Nat.ModEq.add_left_cancel' F h
  have h2 : j % d = k % d := h1
  rwa [Nat.mod_eq_of_lt hj, Nat.mod_eq_of_lt hk] at h2

theorem cursor_ne {F j k : Nat} (hj : j < WORD) (hk : k < WORD) (hjk : j ≠ k) :
    (F + j) % WORD ≠ (F % WORD + k) % WORD := by
  intro h
  rw [Nat.mod_add_mod] at h
  exact hjk (index_inj hj hk h)

theorem countP_set (p : element_t → Bool) : ∀ (a : List element_t) (i : Nat) (x y : element_t),
    a[i]? = some y →
    (a.set i x).countP p + (if p y then 1 else 0) = a.countP p + (if p x then 1 else 0) := by
  intro a
  induction a with
  | nil => intro i x y h; simp at h
  | cons b t ih =>
    intro i x y h
    cases i with
    | zero =>
      simp at h
      subst h
      simp [List.countP_cons]
      omega
    | succ n =>
      simp at h
      have := ih n x y h
      simp [List.countP_cons]
      omega

/-! ## The representation relation is established and preserved -/

theorem abs_create {depth : Nat} {q : lfq_t} (hd : 1 ≤ depth) (hw : depth < WORD)
    (hq : lfq_create true true depth = some q) : Abs q 0 0 [] := by
  simp only [lfq_create, if_true, Option.some.injEq] at hq
  subst hq
  refine ⟨hd, hw, rfl, rfl, rfl, Nat.zero_le _, by simp, Or.inr (Nat.zero_le _),
    List.replicate depth ⟨0, 0⟩, rfl, by simp, ?_, ?_⟩
  · show List.countP has_payload _ = 0
    rw [List.countP_eq_zero]
    intro s hs
    simp [(List.mem_replicate.mp hs).2, has_payload]
  · intro j hj
    have hi : (0 + j) % depth < (List.replicate depth (⟨0, 0⟩ : element_t)).length := by
      simpa using Nat.mod_lt _ hd
    refine ⟨⟨0, 0⟩, ?_, by simp⟩
    rw [List.getElem?_eq_getElem hi]
    simp

theorem abs_all_null {q : lfq_t} {R F : Nat} (h : Abs q R F []) :
    ∃ a, q.e = some a ∧ a.length = q.depth ∧ ∀ s ∈ a, s.ptr = 0 := by
  obtain ⟨_, _, _, _, _, _, _, _, a, he, hlen, hc, _⟩ := h
  refine ⟨a, he, hlen, ?_⟩
  intro s hs
  have := (List.countP_eq_zero.mp hc) s hs
  simpa [has_payload] using this

theorem abs_enqueue_store {q : lfq_t} {R F : Nat} {l : List Nat} (h : Abs q R F l)
    (hl : l.length < q.depth) (hR : q.depth ∣ WORD ∨ R < WORD) (data : Nat) :
    ∃ a old, q.e = some a ∧ a[q.rear % q.depth]? = some old ∧ old.ptr = 0 ∧
      q.rear ≠ (q.front + q.depth) % WORD ∧
      enqueue_iter q data = Step.ret 1
        { q with e := some (a.set (q.rear % q.depth) ⟨data, (old.ref + 1) % WORD⟩),
                 rear := (q.rear + 1) % WORD } ∧
      (data ≠ 0 → Abs { q with e := some (a.set (q.rear % q.depth) ⟨data, (old.ref + 1) % WORD⟩),
                               rear := (q.rear + 1) % WORD } (R + 1) F (l ++ [data])) := by
  obtain ⟨hd, hw, hr, hf, hRF, hle, hnz, hring, a, he, hlen, hc, hs⟩ := h
  have hidx : q.rear % q.depth = (F + l.length) % q.depth := by
    rw [hr, cursor_index hR, hRF]
  obtain ⟨old, hold, hptr⟩ := hs l.length hl
  rw [List.getD_eq_default _ _ (Nat.le_refl _)] at hptr
  rw [← hidx] at hold
  have hnf : q.rear ≠ (q.front + q.depth) % WORD := by
    rw [hr, hf, hRF]
    exact cursor_ne (Nat.lt_trans hl hw) hw (Nat.ne_of_lt hl)
  refine ⟨a, old, he, hold, hptr, hnf, enqueue_iter_store he hd data hnf hold hptr, ?_⟩
  intro hdata
  have hi : q.rear % q.depth < a.length := by rw [hlen]; exact Nat.mod_lt _ hd
  refine ⟨hd, hw, ?_, hf, ?_, ?_, ?_, ?_, a.set (q.rear % q.depth) ⟨data, (old.ref + 1) % WORD⟩,
    rfl, by simpa using hlen, ?_, ?_⟩
  · show (q.rear + 1) % WORD = (R + 1) % WORD
    rw [hr, Nat.mod_add_mod]
  · simp [hRF, Nat.add_assoc]
  · simp; omega
  · intro x hx
    rcases List.mem_append.mp hx with hx | hx
    · exact hnz x hx
    · simp at hx; rw [hx]; exact hdata
  · rcases hR with hR | hR
    · exact Or.inl hR
    · exact Or.inr hR
  · have := countP_set has_payload a (q.rear % q.depth)
      ⟨data, (old.ref + 1) % WORD⟩ old hold
    simp only [has_payload, hptr] at this
    simp [hdata] at this
    simp [this, hc]
  · intro j hj
    by_cases hjl : j = l.length
    · subst hjl
      refine ⟨⟨data, (old.ref + 1) % WORD⟩, ?_, by simp [List.getD_append_right]⟩
      rw [← hidx, List.getElem?_set, if_pos rfl, if_pos hi]
    · obtain ⟨s, hs1, hs2⟩ := hs j hj
      refine ⟨s, ?_, ?_⟩
      · rw [List.getElem?_set, if_neg, hs1]
        rw [hidx]
        intro hcontra
        exact hjl (index_inj hl hj hcontra).symm
      · rw [hs2]
        by_cases hlt : j < l.length
        · rw [List.getD_append _ _ _ _ hlt]
        · rw [List.getD_eq_default _ _ (by omega), List.getD_eq_default _ _ (by simp; omega)]

theorem abs_front_index {q : lfq_t} {R F : Nat} {l : List Nat} (h : Abs q R F l)
    (hl : 0 < l.length) : q.front % q.depth = F % q.depth := by
  obtain ⟨_, _, _, hf, hRF, _, _, hring, _⟩ := h
  rw [hf]
  apply cursor_index
  rcases hring with hring | hring
  · exact Or.inl hring
  · exact Or.inr (by omega)

theorem abs_enqueue_full {q : lfq_t} {R F : Nat} {l : List Nat} (h : Abs q R F l)
    (hl : l.length = q.depth) (data : Nat) :
    q.rear = (q.front + q.depth) % WORD ∧ enqueue_iter q data = Step.ret 0 q := by
  have hfi := abs_front_index h (by rw [hl]; exact h.1)
  obtain ⟨hd, hw, hr, hf, hRF, hle, hnz, hring, a, he, hlen, hc, hs⟩ := h
  have hfull : q.rear = (q.front + q.depth) % WORD := by
    rw [hr, hf, hRF, hl, Nat.mod_add_mod]
  obtain ⟨cur, hcur, hptr⟩ := hs 0 hd
  rw [Nat.add_zero, ← hfi] at hcur
  refine ⟨hfull, enqueue_iter_full he hlen hd data hfull hcur ?_⟩
  rw [hptr]
  cases l with
  | nil => simp at hl; omega
  | cons x t => simpa using hnz x (List.mem_cons_self _ _)

theorem abs_dequeue_take {q : lfq_t} {R F x : Nat} {t : List Nat} (h : Abs q R F (x :: t)) :
    ∃ a old, q.e = some a ∧ a[q.front % q.depth]? = some old ∧ old.ptr = x ∧ x ≠ 0 ∧
      q.front ≠ q.rear ∧
      dequeue_iter q = Step.ret x
        { q with e := some (a.set (q.front % q.depth) ⟨0, (old.ref + 1) % WORD⟩),
                 front := (q.front + 1) % WORD } ∧
      Abs { q with e := some (a.set (q.front % q.depth) ⟨0, (old.ref + 1) % WORD⟩),
                   front := (q.front + 1) % WORD } R (F + 1) t := by
  have hfi := abs_front_index h (by simp)
  obtain ⟨hd, hw, hr, hf, hRF, hle, hnz, hring, a, he, hlen, hc, hs⟩ := h
  obtain ⟨old, hold, hptr⟩ := hs 0 hd
  rw [Nat.add_zero, ← hfi] at hold
  simp only [List.getD_cons_zero] at hptr
  have hx : x ≠ 0 := hnz x (List.mem_cons_self _ _)
  have hold0 : old.ptr ≠ 0 := by rw [hptr]; exact hx
  simp only [List.length_cons] at hRF hle
  have hne : q.front ≠ q.rear := by
    rw [hr, hf, hRF]
    intro hcontra
    have h1 : (F + 0) % WORD = (F + (t.length + 1)) % WORD := by simpa using hcontra
    have := index_inj (by unfold WORD; omega) (by omega) h1
    omega
  have htake := dequeue_iter_take he hd hne hold hold0
  rw [hptr] at htake
  refine ⟨a, old, he, hold, hptr, hx, hne, htake, ?_⟩
  have hi : q.front % q.depth < a.length := by rw [hlen]; exact Nat.mod_lt _ hd
  refine ⟨hd, hw, hr, ?_, ?_, ?_, ?_, hring, a.set (q.front % q.depth) ⟨0, (old.ref + 1) % WORD⟩,
    rfl, by simpa using hlen, ?_, ?_⟩
  · show (q.front + 1) % WORD = (F + 1) % WORD
    rw [hf, Nat.mod_add_mod]
  · omega
  · show t.length ≤ q.depth
    omega
  · intro y hy
    exact hnz y (List.mem_cons_of_mem _ hy)
  · have := countP_set has_payload a (q.front % q.depth) ⟨0, (old.ref + 1) % WORD⟩ old hold
    have h1 : has_payload old = true := by simp [has_payload, hold0]
    have h2 : has_payload ⟨0, (old.ref + 1) % WORD⟩ = false := by simp [has_payload]
    rw [h1, h2] at this
    simp only [if_true, Bool.false_eq_true, if_false, Nat.add_zero] at this
    simp only [List.length_cons] at hc
    show List.countP has_payload (a.set (q.front % q.depth) ⟨0, (old.ref + 1) % WORD⟩) = t.length
    omega
  · intro j hj
    replace hj : j < q.depth := hj
    show ∃ s, (a.set (q.front % q.depth) ⟨0, (old.ref + 1) % WORD⟩)[(F + 1 + j) % q.depth]? = some s
      ∧ s.ptr = t.getD j 0
    by_cases hjd : j + 1 = q.depth
    · refine ⟨⟨0, (old.ref + 1) % WORD⟩, ?_, ?_⟩
      · have : (F + 1 + j) % q.depth = q.front % q.depth := by
          rw [hfi, Nat.add_assoc, Nat.add_comm 1 j, hjd, Nat.add_mod_right]
        rw [this, List.getElem?_set, if_pos rfl, if_pos hi]
      · rw [List.getD_eq_default _ _ (by omega)]
    · obtain ⟨s, hs1, hs2⟩ := hs (j + 1) (by omega)
      refine ⟨s, ?_, ?_⟩
      · have hidx : (F + 1 + j) % q.depth = (F + (j + 1)) % q.depth := by
          rw [Nat.add_assoc, Nat.add_comm 1 j]
        rw [hidx, List.getElem?_set, if_neg, hs1]
        rw [hfi]
        intro hcontra
        have h1 : (F + 0) % q.depth = (F + (j + 1)) % q.depth := by simpa using hcontra
        have := index_inj hd (by omega) h1
        omega
      · rw [hs2, List.getD_cons_succ]

/-! ## Calls and call sequences against the abstract FIFO -/

theorem lfq_enqueue_of_iter {q q1 : lfq_t} {data v : Nat}
    (h : enqueue_iter q data = Step.ret v q1) (fuel : Nat) :
    lfq_enqueue (fuel + 1) q data = Res.ret v q1 := by
  simp [lfq_enqueue, h]

theorem lfq_dequeue_of_iter {q q1 : lfq_t} {v : Nat}
    (h : dequeue_iter q = Step.ret v q1) (fuel : Nat) :
    lfq_dequeue (fuel + 1) q = Res.ret v q1 := by
  simp [lfq_dequeue, h]

/-- One call on a memory that represents `l`: a dequeue of the empty queue
never returns; every other call returns after one iteration what the abstract
FIFO answers and leaves a memory that represents the abstract successor. -/
theorem abs_call {q : lfq_t} {R F : Nat} {l : List Nat} (h : Abs q R F l) (op : Op)
    (hp : ∀ p ∈ payloads [op], p ≠ 0)
    (hR : q.depth ∣ WORD ∨ R + fifo_gain q.depth l op ≤ WORD) :
    (fifo_stuck l op = true ∧ ∀ fuel, call fuel q op = Res.spin) ∨
    (fifo_stuck l op = false ∧ ∃ q1 F1,
      (∀ fuel, call (fuel + 1) q op = Res.ret (fifo_step q.depth l op).1 q1) ∧
      Abs q1 (R + fifo_gain q.depth l op) F1 (fifo_step q.depth l op).2 ∧
      q1.depth = q.depth) := by
  cases op with
  | enqueue data =>
    right
    refine ⟨rfl, ?_⟩
    have hdata : data ≠ 0 := hp data (by simp [payloads])
    by_cases hl : l.length < q.depth
    · have hstep : fifo_step q.depth l (Op.enqueue data) = (1, l ++ [data]) := by
        simp [fifo_step, hl]
      have hgain : fifo_gain q.depth l (Op.enqueue data) = 1 := by simp [fifo_gain, hl]
      rw [hgain] at hR
      rw [hstep, hgain]
      have hR1 : q.depth ∣ WORD ∨ R < WORD := by
        rcases hR with hR | hR
        · exact Or.inl hR
        · right; omega
      obtain ⟨a, old, _, _, _, _, hit, habs⟩ := abs_enqueue_store h hl hR1 data
      exact ⟨_, F, fun fuel => lfq_enqueue_of_iter hit fuel, habs hdata, rfl⟩
    · have hstep : fifo_step q.depth l (Op.enqueue data) = (0, l) := by
        simp [fifo_step, hl]
      have hgain : fifo_gain q.depth l (Op.enqueue data) = 0 := by simp [fifo_gain, hl]
      rw [hstep, hgain]
      have hfull : l.length = q.depth := Nat.le_antisymm h.2.2.2.2.2.1 (Nat.le_of_not_lt hl)
      obtain ⟨_, hit⟩ := abs_enqueue_full h hfull data
      exact ⟨q, F, fun fuel => lfq_enqueue_of_iter hit fuel, h, rfl⟩
  | dequeue =>
    cases l with
    | nil =>
      left
      refine ⟨rfl, ?_⟩
      intro fuel
      obtain ⟨a, he, hlen, hnull⟩ := abs_all_null h
      exact dequeue_all_null_spins fuel q a he hlen h.1 hnull
    | cons x t =>
      right
      refine ⟨rfl, ?_⟩
      obtain ⟨a, old, _, _, _, _, _, hit, habs⟩ := abs_dequeue_take h
      exact ⟨_, F + 1, fun fuel => lfq_dequeue_of_iter hit fuel, habs, rfl⟩

theorem payloads_cons_ne {op : Op} {ops : List Op} (hp : ∀ p ∈ payloads (op :: ops), p ≠ 0) :
    (∀ p ∈ payloads [op], p ≠ 0) ∧ (∀ p ∈ payloads ops, p ≠ 0) := by
  cases op with
  | enqueue data =>
    simp only [payloads, List.mem_cons] at hp ⊢
    exact ⟨fun p hp1 => hp p (Or.inl (by simpa using hp1)), fun p hp1 => hp p (Or.inr hp1)⟩
  | dequeue =>
    simp only [payloads] at hp ⊢
    exact ⟨by simp, hp⟩

/-- Totality: a call sequence in which no dequeue meets the empty queue runs
to its end with any positive fuel and returns the answers of the abstract FIFO. -/
theorem exec_total : ∀ (ops : List Op) (q : lfq_t) (R F : Nat) (l : List Nat),
    Abs q R F l → (∀ p ∈ payloads ops, p ≠ 0) → fifo_live q.depth l ops = true →
    (q.depth ∣ WORD ∨ R + fifo_accepts q.depth l ops ≤ WORD) →
    ∃ q1 F1, (∀ fuel, exec (fuel + 1) q ops = some (fifo_run q.depth l ops, q1)) ∧
      Abs q1 (R + fifo_accepts q.depth l ops) F1 (fifo_final q.depth l ops) ∧
      q1.depth = q.depth := by
  intro ops
  induction ops with
  | nil =>
    intro q R F l h _ _ _
    exact ⟨q, F, fun _ => rfl, by simpa [fifo_accepts, fifo_final] using h, rfl⟩
  | cons op ops ih =>
    intro q R F l h hp hlive hR
    obtain ⟨hp1, hp2⟩ := payloads_cons_ne hp
    simp only [fifo_live, Bool.and_eq_true, Bool.not_eq_true'] at hlive
    simp only [fifo_accepts] at hR
    have hR1 : q.depth ∣ WORD ∨ R + fifo_gain q.depth l op ≤ WORD := by
      rcases hR with hR | hR
      · exact Or.inl hR
      · right; omega
    rcases abs_call h op hp1 hR1 with ⟨hst, _⟩ | ⟨_, q1, F1, hcall, habs, hdep⟩
    · rw [hlive.1] at hst; exact absurd hst (by simp)
    · have hR2 : q1.depth ∣ WORD ∨
          R + fifo_gain q.depth l op + fifo_accepts q1.depth (fifo_step q.depth l op).2 ops
            ≤ WORD := by
        rw [hdep]
        rcases hR with hR | hR
        · exact Or.inl hR
        · right; omega
      obtain ⟨q2, F2, hex, habs2, hdep2⟩ :=
        ih q1 _ F1 _ habs hp2 (by rw [hdep]; exact hlive.2) hR2
      rw [hdep] at hex habs2
      refine ⟨q2, F2, ?_, ?_, by rw [hdep2, hdep]⟩
      · intro fuel
        simp [exec, hcall fuel, hex fuel, fifo_run]
      · simpa [fifo_accepts, fifo_final, Nat.add_assoc] using habs2

theorem fifo_gain_le (cap : Nat) (l : List Nat) (op : Op) :
    fifo_gain cap l op ≤ (payloads [op]).length := by
  cases op with
  | enqueue data => simp only [fifo_gain, payloads]; split <;> simp
  | dequeue => simp [fifo_gain]

theorem payloads_cons_length (op : Op) (ops : List Op) :
    (payloads (op :: ops)).length = (payloads [op]).length + (payloads ops).length := by
  cases op with
  | enqueue data => simp [payloads]; omega
  | dequeue => simp [payloads]

theorem fifo_accepts_le (cap : Nat) : ∀ (ops : List Op) (l : List Nat),
    fifo_accepts cap l ops ≤ (payloads ops).length := by
  intro ops
  induction ops with
  | nil => intro l; simp [fifo_accepts]
  | cons op ops ih =>
    intro l
    rw [payloads_cons_length]
    simp only [fifo_accepts]
    have := ih (fifo_step cap l op).2
    have := fifo_gain_le cap l op
    omega

/-- Soundness: whenever a call sequence has run to its end, no dequeue met the
empty queue and the returned values are the answers of the abstract FIFO. -/
theorem exec_sound : ∀ (ops : List Op) (q : lfq_t) (R F : Nat) (l : List Nat)
    (fuel : Nat) (rs : List Nat) (q1 : lfq_t),
    Abs q R F l → (∀ p ∈ payloads ops, p ≠ 0) →
    (q.depth ∣ WORD ∨ R + (payloads ops).length ≤ WORD) →
    exec fuel q ops = some (rs, q1) →
    fifo_live q.depth l ops = true ∧ rs = fifo_run q.depth l ops ∧ q1.depth = q.depth ∧
    ∃ F1, Abs q1 (R + fifo_accepts q.depth l ops) F1 (fifo_final q.depth l ops) := by
  intro ops
  induction ops with
  | nil =>
    intro q R F l fuel rs q1 h _ _ hex
    simp only [exec, Option.some.injEq, Prod.mk.injEq] at hex
    obtain ⟨hrs, hq⟩ := hex
    subst hrs; subst hq
    exact ⟨rfl, rfl, rfl, F, by simpa [fifo_accepts, fifo_final] using h⟩
  | cons op ops ih =>
    intro q R F l fuel rs q1 h hp hR hex
    obtain ⟨hp1, hp2⟩ := payloads_cons_ne hp
    rw [payloads_cons_length] at hR
    have hg := fifo_gain_le q.depth l op
    have hR1 : q.depth ∣ WORD ∨ R + fifo_gain q.depth l op ≤ WORD := by
      rcases hR with hR | hR
      · exact Or.inl hR
      · right; omega
    rcases abs_call h op hp1 hR1 with ⟨_, hspin⟩ | ⟨hst, q2, F2, hcall, habs, hdep⟩
    · simp [exec, hspin fuel] at hex
    · cases fuel with
      | zero => cases op <;> simp [exec, call, lfq_enqueue, lfq_dequeue] at hex
      | succ n =>
        simp only [exec, hcall n] at hex
        cases hrest : exec (n + 1) q2 ops with
        | none => simp [hrest] at hex
        | some pr =>
          obtain ⟨rs2, q3⟩ := pr
          simp only [hrest, Option.some.injEq, Prod.mk.injEq] at hex
          obtain ⟨hrs, hq⟩ := hex
          subst hrs; subst hq
          have hR2 : q2.depth ∣ WORD ∨
              R + fifo_gain q.depth l op + (payloads ops).length ≤ WORD := by
            rw [hdep]
            rcases hR with hR | hR
            · exact Or.inl hR
            · right; omega
          obtain ⟨hl2, hrs2, hd2, F3, habs3⟩ := ih q2 _ F2 _ (n + 1) rs2 q3 habs hp2 hR2 hrest
          rw [hdep] at hl2 hrs2 hd2 habs3
          refine ⟨by simp [fifo_live, hst, hl2], by simp [fifo_run, hrs2], hd2, F3, ?_⟩
          simpa [fifo_accepts, fifo_final, Nat.add_assoc] using habs3

/-! ## Facts about the abstract FIFO and the shapes of call sequences -/

theorem payloads_map_enqueue (ps : List Nat) : payloads (ps.map Op.enqueue) = ps := by
  induction ps with
  | nil => rfl
  | cons p ps ih => simp [payloads, ih]

theorem payloads_replicate_dequeue (n : Nat) : payloads (List.replicate n Op.dequeue) = [] := by
  induction n with
  | zero => rfl
  | succ n ih => simp [List.replicate_succ, payloads, ih]

theorem payloads_pairs (ps : List Nat) : payloads (pairs ps) = ps := by
  induction ps with
  | nil => rfl
  | cons p ps ih => simp [pairs, payloads, ih]

theorem payloads_append (ops1 ops2 : List Op) :
    payloads (ops1 ++ ops2) = payloads ops1 ++ payloads ops2 := by
  induction ops1 with
  | nil => rfl
  | cons op ops ih => cases op <;> simp [payloads, ih]

theorem fifo_enqueues (cap : Nat) : ∀ (ps l : List Nat), l.length + ps.length ≤ cap →
    fifo_run cap l (ps.map Op.enqueue) = List.replicate ps.length 1 ∧
    fifo_final cap l (ps.map Op.enqueue) = l ++ ps ∧
    fifo_live cap l (ps.map Op.enqueue) = true ∧
    fifo_accepts cap l (ps.map Op.enqueue) = ps.length := by
  intro ps
  induction ps with
  | nil => intro l _; simp [fifo_run, fifo_final, fifo_live, fifo_accepts]
  | cons p ps ih =>
    intro l hl
    simp only [List.length_cons] at hl
    have hlt : l.length < cap := by omega
    obtain ⟨h1, h2, h3, h4⟩ := ih (l ++ [p]) (by simp; omega)
    simp [fifo_run, fifo_final, fifo_live, fifo_accepts, fifo_step, fifo_stuck, fifo_gain, hlt,
      h1, h2, h3, h4, List.replicate_succ]
    omega

theorem fifo_dequeues (cap : Nat) : ∀ (l : List Nat),
    fifo_run cap l (List.replicate l.length Op.dequeue) = l ∧
    fifo_final cap l (List.replicate l.length Op.dequeue) = [] ∧
    fifo_live cap l (List.replicate l.length Op.dequeue) = true ∧
    fifo_accepts cap l (List.replicate l.length Op.dequeue) = 0 := by
  intro l
  induction l with
  | nil => simp [fifo_run, fifo_final, fifo_live, fifo_accepts]
  | cons x t ih =>
    obtain ⟨h1, h2, h3, h4⟩ := ih
    simp [fifo_run, fifo_final, fifo_live, fifo_accepts, fifo_step, fifo_stuck, fifo_gain,
      h1, h2, h3, h4, List.replicate_succ]

theorem fifo_pairs (cap : Nat) (hc : 1 ≤ cap) : ∀ (ps : List Nat),
    fifo_final cap [] (pairs ps) = [] ∧
    fifo_live cap [] (pairs ps) = true ∧
    fifo_accepts cap [] (pairs ps) = ps.length := by
  intro ps
  induction ps with
  | nil => simp [pairs, fifo_final, fifo_live, fifo_accepts]
  | cons p ps ih =>
    obtain ⟨h1, h2, h3⟩ := ih
    have hlt : 0 < cap := hc
    simp [pairs, fifo_final, fifo_live, fifo_accepts, fifo_step, fifo_stuck, fifo_gain, hlt,
      h1, h2, h3]
    omega

/-- In the abstract FIFO the values dequeued so far followed by the content
are the content at the start followed by the accepted payloads. -/
theorem fifo_conservation (cap : Nat) : ∀ (ops : List Op) (l : List Nat),
    (∀ x ∈ l, x ≠ 0) → (∀ p ∈ payloads ops, p ≠ 0) →
    dequeued ops (fifo_run cap l ops) ++ fifo_final cap l ops
      = l ++ accepted ops (fifo_run cap l ops) := by
  intro ops
  induction ops with
  | nil => intro l _ _; simp [dequeued, accepted, fifo_run, fifo_final]
  | cons op ops ih =>
    intro l hl hp
    obtain ⟨hp1, hp2⟩ := payloads_cons_ne hp
    cases op with
    | enqueue data =>
      have hdata : data ≠ 0 := hp1 data (by simp [payloads])
      by_cases hlt : l.length < cap
      · have hl2 : ∀ x ∈ l ++ [data], x ≠ 0 := by
          intro x hx
          rcases List.mem_append.mp hx with hx | hx
          · exact hl x hx
          · simp at hx; rw [hx]; exact hdata
        have := ih (l ++ [data]) hl2 hp2
        simp [dequeued, accepted, fifo_run, fifo_final, fifo_step, hlt, this]
      · have := ih l hl hp2
        simp [dequeued, accepted, fifo_run, fifo_final, fifo_step, hlt, this]
    | dequeue =>
      cases l with
      | nil =>
        have := ih [] hl hp2
        simpa [dequeued, accepted, fifo_run, fifo_final, fifo_step] using this
      | cons x t =>
        have hx : x ≠ 0 := hl x (List.mem_cons_self _ _)
        have := ih t (fun y hy => hl y (List.mem_cons_of_mem _ hy)) hp2
        simp [dequeued, accepted, fifo_run, fifo_final, fifo_step, hx, this]

theorem exec_append (fuel : Nat) : ∀ (ops1 ops2 : List Op) (q q1 q2 : lfq_t) (rs1 rs2 : List Nat),
    exec fuel q ops1 = some (rs1, q1) → exec fuel q1 ops2 = some (rs2, q2) →
    exec fuel q (ops1 ++ ops2) = some (rs1 ++ rs2, q2) := by
  intro ops1
  induction ops1 with
  | nil =>
    intro ops2 q q1 q2 rs1 rs2 h1 h2
    simp only [exec, Option.some.injEq, Prod.mk.injEq] at h1
    obtain ⟨hrs, hq⟩ := h1
    subst hrs; subst hq
    simpa using h2
  | cons op ops ih =>
    intro ops2 q q1 q2 rs1 rs2 h1 h2
    simp only [exec, List.cons_append] at h1 ⊢
    cases hc : call fuel q op with
    | ret v q3 =>
      simp only [hc] at h1 ⊢
      cases hrest : exec fuel q3 ops with
      | none => simp [hrest] at h1
      | some pr =>
        obtain ⟨rs3, q4⟩ := pr
        simp only [hrest, Option.some.injEq, Prod.mk.injEq] at h1
        obtain ⟨hrs, hq⟩ := h1
        subst hrs; subst hq
        simp [ih ops2 q3 q4 q2 rs3 rs2 hrest h2]
    | trap => simp [hc] at h1
    | spin => simp [hc] at h1

/-- What is known of a reached state when cursor wraparound is out of play. -/
theorem reached_abs {depth : Nat} {ops : List Op} {rs : List Nat} {q : lfq_t}
    (hr : Reached depth ops rs q) (hw : NoWrap depth ops) :
    q.depth = depth ∧ fifo_live depth [] ops = true ∧ rs = fifo_run depth [] ops ∧
    ∃ R F, Abs q R F (fifo_final depth [] ops) ∧ (depth ∣ WORD ∨ R < WORD) := by
  obtain ⟨hd, hlt, hp, fuel, q0, hq0, hex⟩ := hr
  have h0 := abs_create hd hlt hq0
  have hdep : q0.depth = depth := by
    simp only [lfq_create, if_true, Option.some.injEq] at hq0
    rw [← hq0]
  have hR : q0.depth ∣ WORD ∨ 0 + (payloads ops).length ≤ WORD := by
    rw [hdep]
    rcases hw with hw | hw
    · exact Or.inl hw
    · right; omega
  obtain ⟨h1, h2, h3, F1, h4⟩ := exec_sound ops q0 0 0 [] fuel rs q h0 hp hR hex
  rw [hdep] at h1 h2 h3 h4
  refine ⟨h3, h1, h2, _, F1, h4, ?_⟩
  rcases hw with hw | hw
  · exact Or.inl hw
  · right
    have := fifo_accepts_le depth ops []
    omega

/-! ## Claims -/

/-- C1: on a queue fresh from `lfq_create(depth)`, `depth ≥ 1`, the `N ≤ depth`
calls `lfq_enqueue` of non-NULL payloads `ps` all return 1, and the `N` calls
`lfq_dequeue` that follow return exactly `ps`, in the order of enqueueing. Each
call needs one loop iteration, so any positive fuel suffices. -/
theorem enqueue_then_dequeue_fifo (depth : Nat) (ps : List Nat) (fuel : Nat) (q0 : lfq_t)
    (hd : 1 ≤ depth) (hw : depth < WORD) (hn : ps.length ≤ depth) (hp : ∀ p ∈ ps, p ≠ 0)
    (hq : lfq_create true true depth = some q0) :
    ∃ q1 q2, exec (fuel + 1) q0 (ps.map Op.enqueue) = some (List.replicate ps.length 1, q1) ∧
      exec (fuel + 1) q1 (List.replicate ps.length Op.dequeue) = some (ps, q2) := by
  have h0 := abs_create hd hw hq
  have hdep : q0.depth = depth := by
    simp only [lfq_create, if_true, Option.some.injEq] at hq
    rw [← hq]
  obtain ⟨e1, e2, e3, e4⟩ := fifo_enqueues depth ps [] (by simpa using hn)
  obtain ⟨q1, F1, hx1, ha1, hd1⟩ := exec_total (ps.map Op.enqueue) q0 0 0 [] h0
    (by rw [payloads_map_enqueue]; exact hp) (by rw [hdep]; exact e3)
    (by rw [hdep, e4]; right; omega)
  rw [hdep, e2] at ha1
  rw [hdep, e1] at hx1
  simp only [List.nil_append] at ha1
  obtain ⟨d1, d2, d3, d4⟩ := fifo_dequeues depth ps
  obtain ⟨q2, F2, hx2, _, _⟩ := exec_total (List.replicate ps.length Op.dequeue) q1 _ F1 ps ha1
    (by rw [payloads_replicate_dequeue]; simp) (by rw [hd1, hdep]; exact d3)
    (by rw [hd1, hdep, d4, e4]; right; omega)
  rw [hd1, hdep, d1] at hx2
  exact ⟨q1, q2, hx1 fuel, hx2 fuel⟩

theorem enqueue_then_dequeue_fifo_witness :
    1 ≤ 2 ∧ 2 < WORD ∧ [5, 7].length ≤ 2 ∧ (∀ p ∈ [5, 7], p ≠ 0) ∧
    lfq_create true true 2 = some ⟨2, some [⟨0, 0⟩, ⟨0, 0⟩], 0, 0⟩ ∧
    ∃ q1 q2, exec (0 + 1) ⟨2, some [⟨0, 0⟩, ⟨0, 0⟩], 0, 0⟩ ([5, 7].map Op.enqueue)
        = some (List.replicate [5, 7].length 1, q1) ∧
      exec (0 + 1) q1 (List.replicate [5, 7].length Op.dequeue) = some ([5, 7], q2) :=
  ⟨by decide, by decide, by decide, by decide, rfl,
    enqueue_then_dequeue_fifo 2 [5, 7] 0 ⟨2, some [⟨0, 0⟩, ⟨0, 0⟩], 0, 0⟩
      (by decide) (by decide) (by decide) (by decide) rfl⟩

/-- C2 (evaluation of the code): when no slot holds a payload, in particular
on every empty queue with `rear == front`, `lfq_dequeue` does not return NULL:
it returns nothing, whatever number of loop iterations it is given. The
cursors play no part, so they are left arbitrary. -/
theorem dequeue_on_empty_never_returns (q : lfq_t) (a : List element_t) (fuel : Nat)
    (he : q.e = some a) (hlen : a.length = q.depth) (hd : 1 ≤ q.depth)
    (hnull : ∀ s ∈ a, s.ptr = 0) :
    lfq_dequeue fuel q = Res.spin ∧ ∀ v q1, lfq_dequeue fuel q ≠ Res.ret v q1 := by
  have h := dequeue_all_null_spins fuel q a he hlen hd hnull
  refine ⟨h, ?_⟩
  intro v q1
  rw [h]
  exact fun hc => Res.noConfusion hc

theorem dequeue_on_empty_never_returns_witness :
    lfq_create true true 1 = some ⟨1, some [⟨0, 0⟩], 0, 0⟩ ∧
    lfq_dequeue 1000 ⟨1, some [⟨0, 0⟩], 0, 0⟩ = Res.spin ∧
    ∀ v q1, lfq_dequeue 1000 ⟨1, some [⟨0, 0⟩], 0, 0⟩ ≠ Res.ret v q1 :=
  ⟨rfl, dequeue_on_empty_never_returns ⟨1, some [⟨0, 0⟩], 0, 0⟩ [⟨0, 0⟩] 1000 rfl rfl
    (by decide) (by decide)⟩

/-- C3 (evaluation of the code): on a queue fresh from `lfq_create(depth)`,
`depth ≥ 1`, no bound on the number of loop iterations makes `lfq_dequeue`
return: the retry loop of a dequeue on the empty queue does not terminate. -/
theorem dequeue_fresh_unbounded (depth : Nat) (q0 : lfq_t) (hd : 1 ≤ depth)
    (hq : lfq_create true true depth = some q0) :
    ∀ fuel, lfq_dequeue fuel q0 = Res.spin := by
  intro fuel
  simp only [lfq_create, if_true, Option.some.injEq] at hq
  subst hq
  refine dequeue_all_null_spins fuel _ (List.replicate depth ⟨0, 0⟩) rfl (by simp) hd ?_
  intro s hs
  rw [(List.mem_replicate.mp hs).2]

theorem dequeue_fresh_unbounded_witness :
    1 ≤ 4 ∧ lfq_create true true 4 = some ⟨4, some (List.replicate 4 ⟨0, 0⟩), 0, 0⟩ ∧
    ∀ fuel, lfq_dequeue fuel ⟨4, some (List.replicate 4 ⟨0, 0⟩), 0, 0⟩ = Res.spin :=
  ⟨by decide, rfl, dequeue_fresh_unbounded 4 ⟨4, some (List.replicate 4 ⟨0, 0⟩), 0, 0⟩
    (by decide) rfl⟩

theorem abs_occupied {q : lfq_t} {R F : Nat} {l : List Nat} (h : Abs q R F l) :
    occupied q = l.length := by
  obtain ⟨_, _, _, _, _, _, _, _, a, he, _, hc, _⟩ := h
  simp [occupied, he, hc]

/-- C4 (amended): in every state reached without cursor wraparound (fewer than
`2 ^ 64` enqueue calls so far, or `depth` dividing `2 ^ 64`), `lfq_enqueue`
returns 0 if `rear == front + depth` and 1 otherwise, and `rear == front +
depth` holds exactly when all `depth` slots hold a payload. -/
theorem enqueue_full_iff (depth : Nat) (ops : List Op) (rs : List Nat) (q : lfq_t)
    (data fuel : Nat) (hr : Reached depth ops rs q) (hw : NoWrap depth ops) :
    (q.rear = (q.front + q.depth) % WORD ↔ occupied q = q.depth) ∧
    ∃ q1, lfq_enqueue (fuel + 1) q data
      = Res.ret (if q.rear = (q.front + q.depth) % WORD then 0 else 1) q1 := by
  obtain ⟨hdep, _, _, R, F, habs, hR⟩ := reached_abs hr hw
  rw [← hdep] at hR
  rw [abs_occupied habs]
  by_cases hl : (fifo_final depth [] ops).length < q.depth
  · obtain ⟨a, old, _, _, _, hnf, hit, _⟩ := abs_enqueue_store habs hl hR data
    refine ⟨⟨fun h => absurd h hnf, fun h => by omega⟩, ?_⟩
    rw [if_neg hnf]
    exact ⟨_, lfq_enqueue_of_iter hit fuel⟩
  · have hfull : (fifo_final depth [] ops).length = q.depth :=
      Nat.le_antisymm habs.2.2.2.2.2.1 (Nat.le_of_not_lt hl)
    obtain ⟨hf, hit⟩ := abs_enqueue_full habs hfull data
    refine ⟨⟨fun _ => hfull, fun _ => hf⟩, ?_⟩
    rw [if_pos hf]
    exact ⟨q, lfq_enqueue_of_iter hit fuel⟩

/-- C5 (amended): in every state reached without cursor wraparound, a call of
`lfq_enqueue` that returns 0 leaves the whole state as it was. -/
theorem enqueue_full_unchanged (depth : Nat) (ops : List Op) (rs : List Nat) (q q1 : lfq_t)
    (data fuel : Nat) (hr : Reached depth ops rs q) (hw : NoWrap depth ops)
    (hret : lfq_enqueue fuel q data = Res.ret 0 q1) : q1 = q := by
  obtain ⟨hdep, _, _, R, F, habs, hR⟩ := reached_abs hr hw
  rw [← hdep] at hR
  cases fuel with
  | zero => simp [lfq_enqueue] at hret
  | succ n =>
    by_cases hl : (fifo_final depth [] ops).length < q.depth
    · obtain ⟨a, old, _, _, _, _, hit, _⟩ := abs_enqueue_store habs hl hR data
      rw [lfq_enqueue_of_iter hit n] at hret
      simp at hret
    · have hfull : (fifo_final depth [] ops).length = q.depth :=
        Nat.le_antisymm habs.2.2.2.2.2.1 (Nat.le_of_not_lt hl)
      obtain ⟨_, hit⟩ := abs_enqueue_full habs hfull data
      rw [lfq_enqueue_of_iter hit n] at hret
      simp only [Res.ret.injEq, true_and] at hret
      exact hret.symm

/-- C7 (amended): in every state reached without cursor wraparound and with
`front != rear`, `lfq_dequeue` returns after one iteration the payload of slot
`front % depth`, which is the oldest accepted payload not yet dequeued; the
state it leaves has that slot set to `(NULL, stamp + 1)`, `front` advanced by
one, and everything else as before. -/
theorem dequeue_nonempty (depth : Nat) (ops : List Op) (rs : List Nat) (q : lfq_t)
    (fuel : Nat) (hr : Reached depth ops rs q) (hw : NoWrap depth ops)
    (hne : q.front ≠ q.rear) :
    ∃ a old, q.e = some a ∧ a[q.front % q.depth]? = some old ∧ old.ptr ≠ 0 ∧
      (accepted ops rs)[(dequeued ops rs).length]? = some old.ptr ∧
      lfq_dequeue (fuel + 1) q = Res.ret old.ptr
        { q with e := some (a.set (q.front % q.depth) ⟨0, (old.ref + 1) % WORD⟩),
                 front := (q.front + 1) % WORD } := by
  obtain ⟨hdep, _, hrs, R, F, habs, hR⟩ := reached_abs hr hw
  have hcons := fifo_conservation depth ops [] (by simp) hr.2.2.1
  rw [← hrs, List.nil_append] at hcons
  cases hl : fifo_final depth [] ops with
  | nil =>
    rw [hl] at habs
    obtain ⟨_, _, h1, h2, h3, _⟩ := habs
    simp only [List.length_nil, Nat.add_zero] at h3
    rw [h1, h2, h3] at hne
    exact absurd rfl hne
  | cons x t =>
    rw [hl] at habs hcons
    obtain ⟨a, old, he, hold, hptr, hx, _, hit, _⟩ := abs_dequeue_take habs
    refine ⟨a, old, he, hold, by rw [hptr]; exact hx, ?_, ?_⟩
    · rw [← hcons, hptr, List.getElem?_append_right (Nat.le_refl _)]
      simp
    · rw [hptr]
      exact lfq_dequeue_of_iter hit fuel

/-- C8 (amended): in every state reached without cursor wraparound that is not
full, `lfq_enqueue` of a payload `data` returns 1 after one iteration;
the state it leaves has slot `rear % depth` set to `(data, stamp + 1)`, `rear`
advanced by one, and everything else as before, so that the logical size
`rear - front` (in 64-bit arithmetic) has grown by exactly one. -/
theorem enqueue_not_full (depth : Nat) (ops : List Op) (rs : List Nat) (q : lfq_t)
    (data fuel : Nat) (hr : Reached depth ops rs q) (hw : NoWrap depth ops)
    (hnf : q.rear ≠ (q.front + q.depth) % WORD) :
    ∃ a old, q.e = some a ∧ a[q.rear % q.depth]? = some old ∧ old.ptr = 0 ∧
      lfq_enqueue (fuel + 1) q data = Res.ret 1
        { q with e := some (a.set (q.rear % q.depth) ⟨data, (old.ref + 1) % WORD⟩),
                 rear := (q.rear + 1) % WORD } ∧
      ((q.rear + 1) % WORD + WORD - q.front) % WORD = (q.rear + WORD - q.front) % WORD + 1 := by
  obtain ⟨hdep, _, _, R, F, habs, hR⟩ := reached_abs hr hw
  rw [← hdep] at hR
  by_cases hl : (fifo_final depth [] ops).length < q.depth
  · obtain ⟨a, old, he, hold, hptr, _, hit, _⟩ := abs_enqueue_store habs hl hR data
    refine ⟨a, old, he, hold, hptr, lfq_enqueue_of_iter hit fuel, ?_⟩
    obtain ⟨_, h2, h3, h4, h5, _⟩ := habs
    rw [h3, h4]
    generalize (fifo_final depth [] ops).length = n at *
    unfold WORD at *
    omega
  · have hfull : (fifo_final depth [] ops).length = q.depth :=
      Nat.le_antisymm habs.2.2.2.2.2.1 (Nat.le_of_not_lt hl)
    exact absurd (abs_enqueue_full habs hfull data).1 hnf

theorem enqueue_full_iff_witness :
    Reached 2 [Op.enqueue 5] [1] ⟨2, some [⟨5, 1⟩, ⟨0, 0⟩], 1, 0⟩ ∧ NoWrap 2 [Op.enqueue 5] ∧
    (((⟨2, some [⟨5, 1⟩, ⟨0, 0⟩], 1, 0⟩ : lfq_t).rear
        = ((⟨2, some [⟨5, 1⟩, ⟨0, 0⟩], 1, 0⟩ : lfq_t).front
            + (⟨2, some [⟨5, 1⟩, ⟨0, 0⟩], 1, 0⟩ : lfq_t).depth) % WORD ↔
      occupied ⟨2, some [⟨5, 1⟩, ⟨0, 0⟩], 1, 0⟩
        = (⟨2, some [⟨5, 1⟩, ⟨0, 0⟩], 1, 0⟩ : lfq_t).depth) ∧
    ∃ q1, lfq_enqueue (0 + 1) ⟨2, some [⟨5, 1⟩, ⟨0, 0⟩], 1, 0⟩ 7
      = Res.ret (if (⟨2, some [⟨5, 1⟩, ⟨0, 0⟩], 1, 0⟩ : lfq_t).rear
          = ((⟨2, some [⟨5, 1⟩, ⟨0, 0⟩], 1, 0⟩ : lfq_t).front
              + (⟨2, some [⟨5, 1⟩, ⟨0, 0⟩], 1, 0⟩ : lfq_t).depth) % WORD
        then 0 else 1) q1) :=
  ⟨⟨by decide, by decide, by decide, 1, ⟨2, some [⟨0, 0⟩, ⟨0, 0⟩], 0, 0⟩, rfl, rfl⟩,
    Or.inr (by decide),
    enqueue_full_iff 2 [Op.enqueue 5] [1] ⟨2, some [⟨5, 1⟩, ⟨0, 0⟩], 1, 0⟩ 7 0
      ⟨by decide, by decide, by decide, 1, ⟨2, some [⟨0, 0⟩, ⟨0, 0⟩], 0, 0⟩, rfl, rfl⟩
      (Or.inr (by decide))⟩

theorem enqueue_full_unchanged_witness :
    Reached 1 [Op.enqueue 5] [1] ⟨1, some [⟨5, 1⟩], 1, 0⟩ ∧ NoWrap 1 [Op.enqueue 5] ∧
    lfq_enqueue 1 ⟨1, some [⟨5, 1⟩], 1, 0⟩ 9 = Res.ret 0 ⟨1, some [⟨5, 1⟩], 1, 0⟩ ∧
    (⟨1, some [⟨5, 1⟩], 1, 0⟩ : lfq_t) = ⟨1, some [⟨5, 1⟩], 1, 0⟩ :=
  ⟨⟨by decide, by decide, by decide, 1, ⟨1, some [⟨0, 0⟩], 0, 0⟩, rfl, rfl⟩,
    Or.inr (by decide), rfl,
    enqueue_full_unchanged 1 [Op.enqueue 5] [1] ⟨1, some [⟨5, 1⟩], 1, 0⟩
      ⟨1, some [⟨5, 1⟩], 1, 0⟩ 9 1
      ⟨by decide, by decide, by decide, 1, ⟨1, some [⟨0, 0⟩], 0, 0⟩, rfl, rfl⟩
      (Or.inr (by decide)) rfl⟩

theorem dequeue_nonempty_witness :
    Reached 2 [Op.enqueue 5] [1] ⟨2, some [⟨5, 1⟩, ⟨0, 0⟩], 1, 0⟩ ∧ NoWrap 2 [Op.enqueue 5] ∧
    (⟨2, some [⟨5, 1⟩, ⟨0, 0⟩], 1, 0⟩ : lfq_t).front
      ≠ (⟨2, some [⟨5, 1⟩, ⟨0, 0⟩], 1, 0⟩ : lfq_t).rear ∧
    ∃ a old, (⟨2, some [⟨5, 1⟩, ⟨0, 0⟩], 1, 0⟩ : lfq_t).e = some a ∧
      a[(⟨2, some [⟨5, 1⟩, ⟨0, 0⟩], 1, 0⟩ : lfq_t).front
        % (⟨2, some [⟨5, 1⟩, ⟨0, 0⟩], 1, 0⟩ : lfq_t).depth]? = some old ∧ old.ptr ≠ 0 ∧
      (accepted [Op.enqueue 5] [1])[(dequeued [Op.enqueue 5] [1]).length]? = some old.ptr ∧
      lfq_dequeue (0 + 1) ⟨2, some [⟨5, 1⟩, ⟨0, 0⟩], 1, 0⟩ = Res.ret old.ptr
        { (⟨2, some [⟨5, 1⟩, ⟨0, 0⟩], 1, 0⟩ : lfq_t) with
          e := some (a.set ((⟨2, some [⟨5, 1⟩, ⟨0, 0⟩], 1, 0⟩ : lfq_t).front
            % (⟨2, some [⟨5, 1⟩, ⟨0, 0⟩], 1, 0⟩ : lfq_t).depth) ⟨0, (old.ref + 1) % WORD⟩),
          front := ((⟨2, some [⟨5, 1⟩, ⟨0, 0⟩], 1, 0⟩ : lfq_t).front + 1) % WORD } :=
  ⟨⟨by decide, by decide, by decide, 1, ⟨2, some [⟨0, 0⟩, ⟨0, 0⟩], 0, 0⟩, rfl, rfl⟩,
    Or.inr (by decide), by decide,
    dequeue_nonempty 2 [Op.enqueue 5] [1] ⟨2, some [⟨5, 1⟩, ⟨0, 0⟩], 1, 0⟩ 0
      ⟨by decide, by decide, by decide, 1, ⟨2, some [⟨0, 0⟩, ⟨0, 0⟩], 0, 0⟩, rfl, rfl⟩
      (Or.inr (by decide)) (by decide)⟩

theorem enqueue_not_full_witness :
    Reached 2 [Op.enqueue 5] [1] ⟨2, some [⟨5, 1⟩, ⟨0, 0⟩], 1, 0⟩ ∧ NoWrap 2 [Op.enqueue 5] ∧
    (⟨2, some [⟨5, 1⟩, ⟨0, 0⟩], 1, 0⟩ : lfq_t).rear
      ≠ ((⟨2, some [⟨5, 1⟩, ⟨0, 0⟩], 1, 0⟩ : lfq_t).front
          + (⟨2, some [⟨5, 1⟩, ⟨0, 0⟩], 1, 0⟩ : lfq_t).depth) % WORD ∧
    ∃ a old, (⟨2, some [⟨5, 1⟩, ⟨0, 0⟩], 1, 0⟩ : lfq_t).e = some a ∧
      a[(⟨2, some [⟨5, 1⟩, ⟨0, 0⟩], 1, 0⟩ : lfq_t).rear
        % (⟨2, some [⟨5, 1⟩, ⟨0, 0⟩], 1, 0⟩ : lfq_t).depth]? = some old ∧ old.ptr = 0 ∧
      lfq_enqueue (0 + 1) ⟨2, some [⟨5, 1⟩, ⟨0, 0⟩], 1, 0⟩ 7 = Res.ret 1
        { (⟨2, some [⟨5, 1⟩, ⟨0, 0⟩], 1, 0⟩ : lfq_t) with
          e := some (a.set ((⟨2, some [⟨5, 1⟩, ⟨0, 0⟩], 1, 0⟩ : lfq_t).rear
            % (⟨2, some [⟨5, 1⟩, ⟨0, 0⟩], 1, 0⟩ : lfq_t).depth) ⟨7, (old.ref + 1) % WORD⟩),
          rear := ((⟨2, some [⟨5, 1⟩, ⟨0, 0⟩], 1, 0⟩ : lfq_t).rear + 1) % WORD } ∧
      (((⟨2, some [⟨5, 1⟩, ⟨0, 0⟩], 1, 0⟩ : lfq_t).rear + 1) % WORD + WORD
          - (⟨2, some [⟨5, 1⟩, ⟨0, 0⟩], 1, 0⟩ : lfq_t).front) % WORD
        = ((⟨2, some [⟨5, 1⟩, ⟨0, 0⟩], 1, 0⟩ : lfq_t).rear + WORD
          - (⟨2, some [⟨5, 1⟩, ⟨0, 0⟩], 1, 0⟩ : lfq_t).front) % WORD + 1 :=
  ⟨⟨by decide, by decide, by decide, 1, ⟨2, some [⟨0, 0⟩, ⟨0, 0⟩], 0, 0⟩, rfl, rfl⟩,
    Or.inr (by decide), by decide,
    enqueue_not_full 2 [Op.enqueue 5] [1] ⟨2, some [⟨5, 1⟩, ⟨0, 0⟩], 1, 0⟩ 7 0
      ⟨by decide, by decide, by decide, 1, ⟨2, some [⟨0, 0⟩, ⟨0, 0⟩], 0, 0⟩, rfl, rfl⟩
      (Or.inr (by decide)) (by decide)⟩

theorem create_depth {depth : Nat} {q0 : lfq_t} (hq : lfq_create true true depth = some q0) :
    q0.depth = depth := by
  simp only [lfq_create, if_true, Option.some.injEq] at hq
  rw [← hq]

/-- C6 (amended): for every call sequence on a fresh queue that stays clear of
cursor wraparound: if no dequeue is called on the empty queue, the sequence
runs to its end and returns the answers of the abstract bounded FIFO of
capacity `depth`; and whenever the sequence has run to its end, the returned
values are those answers, and the accepted payloads are the dequeued values,
in order, followed by the content still queued. Nothing is said here of a
dequeue that meets the empty queue. -/
theorem single_thread_refines_fifo (depth : Nat) (ops : List Op) (q0 : lfq_t)
    (hd : 1 ≤ depth) (hw : depth < WORD) (hp : ∀ p ∈ payloads ops, p ≠ 0)
    (hnw : NoWrap depth ops) (hq : lfq_create true true depth = some q0) :
    (fifo_live depth [] ops = true →
      ∃ q, ∀ fuel, exec (fuel + 1) q0 ops = some (fifo_run depth [] ops, q)) ∧
    (∀ fuel rs q, exec fuel q0 ops = some (rs, q) →
      rs = fifo_run depth [] ops ∧
      accepted ops rs = dequeued ops rs ++ fifo_final depth [] ops ∧
      dequeued ops rs <+: accepted ops rs) := by
  have h0 := abs_create hd hw hq
  have hdep := create_depth hq
  constructor
  · intro hlive
    have hR : q0.depth ∣ WORD ∨ 0 + fifo_accepts q0.depth [] ops ≤ WORD := by
      rw [hdep]
      rcases hnw with hnw | hnw
      · exact Or.inl hnw
      · right
        have := fifo_accepts_le depth ops []
        omega
    obtain ⟨q, _, hx, _, _⟩ := exec_total ops q0 0 0 [] h0 hp (by rw [hdep]; exact hlive) hR
    rw [hdep] at hx
    exact ⟨q, hx⟩
  · intro fuel rs q hex
    obtain ⟨_, _, hrs, _⟩ := reached_abs ⟨hd, hw, hp, fuel, q0, hq, hex⟩ hnw
    have hcons := fifo_conservation depth ops [] (by simp) hp
    rw [← hrs, List.nil_append] at hcons
    exact ⟨hrs, hcons.symm, ⟨_, hcons⟩⟩

theorem single_thread_refines_fifo_witness :
    1 ≤ 2 ∧ 2 < WORD ∧
    (∀ p ∈ payloads [Op.enqueue 5, Op.enqueue 6, Op.enqueue 7, Op.dequeue], p ≠ 0) ∧
    NoWrap 2 [Op.enqueue 5, Op.enqueue 6, Op.enqueue 7, Op.dequeue] ∧
    lfq_create true true 2 = some ⟨2, some [⟨0, 0⟩, ⟨0, 0⟩], 0, 0⟩ ∧
    fifo_run 2 [] [Op.enqueue 5, Op.enqueue 6, Op.enqueue 7, Op.dequeue] = [1, 1, 0, 5] ∧
    ((fifo_live 2 [] [Op.enqueue 5, Op.enqueue 6, Op.enqueue 7, Op.dequeue] = true →
      ∃ q, ∀ fuel, exec (fuel + 1) ⟨2, some [⟨0, 0⟩, ⟨0, 0⟩], 0, 0⟩
          [Op.enqueue 5, Op.enqueue 6, Op.enqueue 7, Op.dequeue]
        = some (fifo_run 2 [] [Op.enqueue 5, Op.enqueue 6, Op.enqueue 7, Op.dequeue], q)) ∧
    (∀ fuel rs q, exec fuel ⟨2, some [⟨0, 0⟩, ⟨0, 0⟩], 0, 0⟩
          [Op.enqueue 5, Op.enqueue 6, Op.enqueue 7, Op.dequeue] = some (rs, q) →
      rs = fifo_run 2 [] [Op.enqueue 5, Op.enqueue 6, Op.enqueue 7, Op.dequeue] ∧
      accepted [Op.enqueue 5, Op.enqueue 6, Op.enqueue 7, Op.dequeue] rs
        = dequeued [Op.enqueue 5, Op.enqueue 6, Op.enqueue 7, Op.dequeue] rs
          ++ fifo_final 2 [] [Op.enqueue 5, Op.enqueue 6, Op.enqueue 7, Op.dequeue] ∧
      dequeued [Op.enqueue 5, Op.enqueue 6, Op.enqueue 7, Op.dequeue] rs
        <+: accepted [Op.enqueue 5, Op.enqueue 6, Op.enqueue 7, Op.dequeue] rs)) :=
  ⟨by decide, by decide, by decide, Or.inr (by decide), rfl, rfl,
    single_thread_refines_fifo 2 [Op.enqueue 5, Op.enqueue 6, Op.enqueue 7, Op.dequeue]
      ⟨2, some [⟨0, 0⟩, ⟨0, 0⟩], 0, 0⟩ (by decide) (by decide) (by decide)
      (Or.inr (by decide)) rfl⟩

/-- C9: for every `depth ≥ 1` (so also `depth = 1`): after `depth` accepted
enqueues on a fresh queue every further sequence of enqueues is answered 0
throughout and leaves the state as it is; the dequeue that follows returns the
first payload; the next enqueue returns 1; and every enqueue after that one
returns 0 again. -/
theorem full_then_drain (depth : Nat) (ps : List Nat) (x fuel : Nat) (q0 : lfq_t)
    (hd : 1 ≤ depth) (hw : depth < WORD) (hn : ps.length = depth) (hp : ∀ p ∈ ps, p ≠ 0)
    (hx : x ≠ 0) (hq : lfq_create true true depth = some q0) :
    ∃ q1 q2 q3,
      exec (fuel + 1) q0 (ps.map Op.enqueue) = some (List.replicate depth 1, q1) ∧
      (∀ ys : List Nat, exec (fuel + 1) q1 (ys.map Op.enqueue)
        = some (List.replicate ys.length 0, q1)) ∧
      lfq_dequeue (fuel + 1) q1 = Res.ret (ps.headD 0) q2 ∧
      lfq_enqueue (fuel + 1) q2 x = Res.ret 1 q3 ∧
      (∀ y, lfq_enqueue (fuel + 1) q3 y = Res.ret 0 q3) := by
  have h0 := abs_create hd hw hq
  have hdep := create_depth hq
  obtain ⟨e1, e2, e3, e4⟩ := fifo_enqueues depth ps [] (by simp [hn])
  obtain ⟨q1, F1, hx1, ha1, hd1⟩ := exec_total (ps.map Op.enqueue) q0 0 0 [] h0
    (by rw [payloads_map_enqueue]; exact hp) (by rw [hdep]; exact e3)
    (by rw [hdep, e4]; right; omega)
  rw [hdep, e2, e4] at ha1
  rw [hdep, e1, hn] at hx1
  rw [hdep] at hd1
  simp only [List.nil_append, Nat.zero_add] at ha1
  have hfull1 : ∀ y, enqueue_iter q1 y = Step.ret 0 q1 :=
    fun y => (abs_enqueue_full ha1 (by rw [hd1, hn]) y).2
  cases ps with
  | nil => simp at hn; omega
  | cons p t =>
    obtain ⟨a, old, _, _, _, _, _, hit2, ha2⟩ := abs_dequeue_take ha1
    simp only [List.length_cons] at hn
    have hlt : t.length < q1.depth := by rw [hd1]; omega
    obtain ⟨a3, old3, _, _, _, _, hit3, ha3⟩ := abs_enqueue_store ha2 hlt
      (Or.inr (by simp only [List.length_cons]; omega)) x
    have hfull3 := fun y => (abs_enqueue_full (ha3 hx)
      (by simp only [List.length_append, List.length_singleton]; rw [hd1]; omega) y).2
    refine ⟨q1, _, _, hx1 fuel, ?_, lfq_dequeue_of_iter hit2 fuel,
      lfq_enqueue_of_iter hit3 fuel, fun y => lfq_enqueue_of_iter (hfull3 y) fuel⟩
    intro ys
    induction ys with
    | nil => rfl
    | cons y ys ih =>
      simp [exec, call, lfq_enqueue_of_iter (hfull1 y) fuel, ih, List.replicate_succ]

theorem full_then_drain_witness :
    1 ≤ 1 ∧ 1 < WORD ∧ [5].length = 1 ∧ (∀ p ∈ [5], p ≠ 0) ∧ 6 ≠ 0 ∧
    lfq_create true true 1 = some ⟨1, some [⟨0, 0⟩], 0, 0⟩ ∧
    ∃ q1 q2 q3,
      exec (0 + 1) ⟨1, some [⟨0, 0⟩], 0, 0⟩ ([5].map Op.enqueue)
        = some (List.replicate 1 1, q1) ∧
      (∀ ys : List Nat, exec (0 + 1) q1 (ys.map Op.enqueue)
        = some (List.replicate ys.length 0, q1)) ∧
      lfq_dequeue (0 + 1) q1 = Res.ret ([5].headD 0) q2 ∧
      lfq_enqueue (0 + 1) q2 6 = Res.ret 1 q3 ∧
      (∀ y, lfq_enqueue (0 + 1) q3 y = Res.ret 0 q3) :=
  ⟨by decide, by decide, rfl, by decide, by decide, rfl,
    full_then_drain 1 [5] 6 0 ⟨1, some [⟨0, 0⟩], 0, 0⟩ (by decide) (by decide) rfl
      (by decide) (by decide) rfl⟩

theorem exec_zero (q : lfq_t) (op : Op) (ops : List Op) : exec 0 q (op :: ops) = none := by
  cases op <;> simp [exec, call, lfq_enqueue, lfq_dequeue]

/-- Two memories that represent the same FIFO content answer every call
sequence alike, with any fuel, as long as neither runs into cursor wraparound. -/
theorem exec_results_agree (ops : List Op) (q q' : lfq_t) (R F R' F' : Nat) (l : List Nat)
    (h : Abs q R F l) (h' : Abs q' R' F' l) (hdep : q'.depth = q.depth)
    (hp : ∀ p ∈ payloads ops, p ≠ 0)
    (hR : q.depth ∣ WORD ∨
      (R + (payloads ops).length ≤ WORD ∧ R' + (payloads ops).length ≤ WORD))
    (fuel : Nat) :
    (exec fuel q ops).map Prod.fst = (exec fuel q' ops).map Prod.fst := by
  have hacc := fifo_accepts_le q.depth ops l
  have hR1 : q.depth ∣ WORD ∨ R + (payloads ops).length ≤ WORD := by
    rcases hR with hR | hR
    · exact Or.inl hR
    · exact Or.inr hR.1
  have hR2 : q'.depth ∣ WORD ∨ R' + (payloads ops).length ≤ WORD := by
    rw [hdep]
    rcases hR with hR | hR
    · exact Or.inl hR
    · exact Or.inr hR.2
  cases fuel with
  | zero =>
    cases ops with
    | nil => rfl
    | cons op ops => rw [exec_zero, exec_zero]
  | succ n =>
    by_cases hlive : fifo_live q.depth l ops = true
    · obtain ⟨q1, _, hx1, _, _⟩ := exec_total ops q R F l h hp hlive
        (by rcases hR1 with hR1 | hR1
            · exact Or.inl hR1
            · right; omega)
      obtain ⟨q2, _, hx2, _, _⟩ := exec_total ops q' R' F' l h' hp (by rw [hdep]; exact hlive)
        (by rw [hdep]
            rw [hdep] at hR2
            rcases hR2 with hR2 | hR2
            · exact Or.inl hR2
            · right; omega)
      rw [hx1 n, hx2 n, hdep]
      rfl
    · have hn1 : exec (n + 1) q ops = none := by
        cases hc : exec (n + 1) q ops with
        | none => rfl
        | some pr =>
          obtain ⟨rs, q1⟩ := pr
          exact absurd (exec_sound ops q R F l (n + 1) rs q1 h hp hR1 hc).1 hlive
      have hn2 : exec (n + 1) q' ops = none := by
        cases hc : exec (n + 1) q' ops with
        | none => rfl
        | some pr =>
          obtain ⟨rs, q1⟩ := pr
          have := (exec_sound ops q' R' F' l (n + 1) rs q1 h' hp hR2 hc).1
          rw [hdep] at this
          exact absurd this hlive
      rw [hn1, hn2]

/-- C10 (amended): after `k * depth` enqueue/dequeue pairs on a fresh queue,
all of which return, every call sequence that stays clear of cursor wraparound
(`depth` divides `2 ^ 64`, or the pairs and the enqueue calls of the sequence
number at most `2 ^ 64` together) is answered exactly as on a fresh queue of
the same depth, with any fuel: the same returned values, and no answer where
the fresh queue gives none. -/
theorem wraparound_indistinguishable (depth k : Nat) (ps : List Nat) (ops : List Op)
    (q0 : lfq_t) (hd : 1 ≤ depth) (hw : depth < WORD) (hk : ps.length = k * depth)
    (hps : ∀ p ∈ ps, p ≠ 0) (hp : ∀ p ∈ payloads ops, p ≠ 0)
    (hnw : depth ∣ WORD ∨ k * depth + (payloads ops).length ≤ WORD)
    (hq : lfq_create true true depth = some q0) :
    ∃ rs qk, (∀ fuel, exec (fuel + 1) q0 (pairs ps) = some (rs, qk)) ∧
      ∀ fuel, (exec fuel qk ops).map Prod.fst = (exec fuel q0 ops).map Prod.fst := by
  have h0 := abs_create hd hw hq
  have hdep := create_depth hq
  obtain ⟨f1, f2, f3⟩ := fifo_pairs depth hd ps
  obtain ⟨qk, Fk, hx, hak, hdk⟩ := exec_total (pairs ps) q0 0 0 [] h0
    (by rw [payloads_pairs]; exact hps) (by rw [hdep]; exact f2)
    (by rw [hdep, f3, hk]
        rcases hnw with hnw | hnw
        · exact Or.inl hnw
        · right; omega)
  rw [hdep, f1, f3] at hak
  refine ⟨_, qk, hx, ?_⟩
  intro fuel
  refine exec_results_agree ops qk q0 _ Fk 0 0 [] hak h0 (by rw [hdk]) hp ?_ fuel
  rw [hdk, hdep, hk]
  rcases hnw with hnw | hnw
  · exact Or.inl hnw
  · right; omega

theorem wraparound_indistinguishable_witness :
    1 ≤ 2 ∧ 2 < WORD ∧ [5, 6, 7, 8].length = 2 * 2 ∧ (∀ p ∈ [5, 6, 7, 8], p ≠ 0) ∧
    (∀ p ∈ payloads [Op.enqueue 1, Op.enqueue 2, Op.enqueue 3, Op.dequeue], p ≠ 0) ∧
    (2 ∣ WORD ∨
      2 * 2 + (payloads [Op.enqueue 1, Op.enqueue 2, Op.enqueue 3, Op.dequeue]).length ≤ WORD) ∧
    lfq_create true true 2 = some ⟨2, some [⟨0, 0⟩, ⟨0, 0⟩], 0, 0⟩ ∧
    ∃ rs qk, (∀ fuel, exec (fuel + 1) ⟨2, some [⟨0, 0⟩, ⟨0, 0⟩], 0, 0⟩ (pairs [5, 6, 7, 8])
        = some (rs, qk)) ∧
      ∀ fuel, (exec fuel qk [Op.enqueue 1, Op.enqueue 2, Op.enqueue 3, Op.dequeue]).map Prod.fst
        = (exec fuel ⟨2, some [⟨0, 0⟩, ⟨0, 0⟩], 0, 0⟩
            [Op.enqueue 1, Op.enqueue 2, Op.enqueue 3, Op.dequeue]).map Prod.fst :=
  ⟨by decide, by decide, rfl, by decide, by decide, Or.inr (by decide), rfl,
    wraparound_indistinguishable 2 2 [5, 6, 7, 8]
      [Op.enqueue 1, Op.enqueue 2, Op.enqueue 3, Op.dequeue]
      ⟨2, some [⟨0, 0⟩, ⟨0, 0⟩], 0, 0⟩ (by decide) (by decide) rfl (by decide) (by decide)
      (Or.inr (by decide)) rfl⟩

/-! ## Evaluation on explicit states, and the states at cursor wraparound -/

theorem enq_store (d r f data : Nat) (a : List element_t) (old : element_t) (hd : 0 < d)
    (hnf : r ≠ (f + d) % WORD) (hold : a[r % d]? = some old) (hp : old.ptr = 0) (fuel : Nat) :
    lfq_enqueue (fuel + 1) ⟨d, some a, r, f⟩ data
      = Res.ret 1 ⟨d, some (a.set (r % d) ⟨data, (old.ref + 1) % WORD⟩), (r + 1) % WORD, f⟩ :=
  lfq_enqueue_of_iter (@enqueue_iter_store ⟨d, some a, r, f⟩ a old rfl hd data hnf hold hp) fuel

theorem enq_skip (d r f data : Nat) (a : List element_t) (old : element_t) (hd : 0 < d)
    (hnf : r ≠ (f + d) % WORD) (hold : a[r % d]? = some old) (hp : old.ptr ≠ 0) (fuel : Nat) :
    lfq_enqueue (fuel + 1) ⟨d, some a, r, f⟩ data
      = lfq_enqueue fuel ⟨d, some a, (r + 1) % WORD, f⟩ data := by
  have h := @enqueue_iter_skip ⟨d, some a, r, f⟩ a old rfl hd data hnf hold hp
  simp only [lfq_enqueue, h]

theorem enq_full (d r f data : Nat) (a : List element_t) (cur : element_t) (hd : 0 < d)
    (hlen : a.length = d) (hf : r = (f + d) % WORD) (hcur : a[f % d]? = some cur)
    (hp : cur.ptr ≠ 0) (fuel : Nat) :
    lfq_enqueue (fuel + 1) ⟨d, some a, r, f⟩ data = Res.ret 0 ⟨d, some a, r, f⟩ :=
  lfq_enqueue_of_iter (@enqueue_iter_full ⟨d, some a, r, f⟩ a cur rfl hlen hd data hf hcur hp) fuel

theorem deq_take (d r f : Nat) (a : List element_t) (old : element_t) (hd : 0 < d)
    (hne : f ≠ r) (hold : a[f % d]? = some old) (hp : old.ptr ≠ 0) (fuel : Nat) :
    lfq_dequeue (fuel + 1) ⟨d, some a, r, f⟩
      = Res.ret old.ptr ⟨d, some (a.set (f % d) ⟨0, (old.ref + 1) % WORD⟩), r, (f + 1) % WORD⟩ :=
  lfq_dequeue_of_iter (@dequeue_iter_take ⟨d, some a, r, f⟩ a old rfl hd hne hold hp) fuel

theorem deq_skip (d r f : Nat) (a : List element_t) (old : element_t) (hd : 0 < d)
    (hne : f ≠ r) (hold : a[f % d]? = some old) (hp : old.ptr = 0) (fuel : Nat) :
    lfq_dequeue (fuel + 1) ⟨d, some a, r, f⟩
      = lfq_dequeue fuel ⟨d, some a, r, (f + 1) % WORD⟩ := by
  have h := @dequeue_iter_skip ⟨d, some a, r, f⟩ a old rfl hd hne hold hp
  simp only [lfq_dequeue, h]

theorem exec_cons_ret {fuel : Nat} {q q1 q2 : lfq_t} {op : Op} {ops : List Op} {v : Nat}
    {rs : List Nat} (h1 : call fuel q op = Res.ret v q1) (h2 : exec fuel q1 ops = some (rs, q2)) :
    exec fuel q (op :: ops) = some (v :: rs, q2) := by
  simp only [exec, h1, h2]

theorem exec_nil (fuel : Nat) (q : lfq_t) : exec fuel q [] = some ([], q) := rfl

theorem exec_cons_enq {fuel : Nat} {q q1 q2 : lfq_t} {data : Nat} {ops : List Op} {v : Nat}
    {rs : List Nat} (h1 : lfq_enqueue fuel q data = Res.ret v q1)
    (h2 : exec fuel q1 ops = some (rs, q2)) :
    exec fuel q (Op.enqueue data :: ops) = some (v :: rs, q2) :=
  @exec_cons_ret fuel q q1 q2 (Op.enqueue data) ops v rs h1 h2

theorem exec_cons_deq {fuel : Nat} {q q1 q2 : lfq_t} {ops : List Op} {v : Nat}
    {rs : List Nat} (h1 : lfq_dequeue fuel q = Res.ret v q1)
    (h2 : exec fuel q1 ops = some (rs, q2)) :
    exec fuel q (Op.dequeue :: ops) = some (v :: rs, q2) :=
  @exec_cons_ret fuel q q1 q2 Op.dequeue ops v rs h1 h2

theorem fifo_run_append (cap : Nat) : ∀ (ops1 ops2 : List Op) (l : List Nat),
    fifo_run cap l (ops1 ++ ops2)
      = fifo_run cap l ops1 ++ fifo_run cap (fifo_final cap l ops1) ops2 := by
  intro ops1
  induction ops1 with
  | nil => intro ops2 l; rfl
  | cons op ops ih =>
    intro ops2 l
    show (fifo_step cap l op).1 :: fifo_run cap (fifo_step cap l op).2 (ops ++ ops2) = _
    rw [ih]
    rfl

theorem null_array (a : List element_t) (h : ∀ s ∈ a, s.ptr = 0) :
    a = (a.map element_t.ref).map (fun r => (⟨0, r⟩ : element_t)) := by
  induction a with
  | nil => rfl
  | cons s t ih =>
    have hs := h s (List.mem_cons_self _ _)
    have ht := ih (fun y hy => h y (List.mem_cons_of_mem _ hy))
    cases s with
    | mk p r =>
      simp only at hs
      subst hs
      simp only [List.map_cons]
      rw [← ht]

/-- The state after `n ≤ 2 ^ 64` enqueue/dequeue pairs on a fresh queue: both
cursors are `n % 2 ^ 64` and every slot is empty. -/
theorem wrap_state (d n : Nat) (hd : 1 ≤ d) (hw : d < WORD) (hn : n ≤ WORD) :
    ∃ stamps : List Nat, stamps.length = d ∧
      ∀ fuel, exec (fuel + 1) ⟨d, some (List.replicate d ⟨0, 0⟩), 0, 0⟩
          (pairs (List.replicate n 1))
        = some (fifo_run d [] (pairs (List.replicate n 1)),
            ⟨d, some (stamps.map (fun r => (⟨0, r⟩ : element_t))), n % WORD, n % WORD⟩) := by
  have h0 : Abs ⟨d, some (List.replicate d ⟨0, 0⟩), 0, 0⟩ 0 0 [] := abs_create hd hw rfl
  obtain ⟨f1, f2, f3⟩ := fifo_pairs d hd (List.replicate n 1)
  obtain ⟨qk, Fk, hx, hak, hdk⟩ := exec_total (pairs (List.replicate n 1)) _ 0 0 [] h0
    (by rw [payloads_pairs]; intro p hp; rw [(List.mem_replicate.mp hp).2]; decide) f2
    (by right; rw [f3]; simpa using hn)
  have hak' : Abs qk n Fk [] := by
    have := hak
    rw [f1, f3] at this
    simpa using this
  obtain ⟨a, he, hlen, hnull⟩ := abs_all_null hak'
  obtain ⟨_, _, hr, hf, hRF, _⟩ := hak'
  simp only [List.length_nil, Nat.add_zero] at hRF
  refine ⟨a.map element_t.ref, by simpa using hlen.trans hdk, ?_⟩
  intro fuel
  rw [hx fuel]
  have hq : qk = ⟨d, some ((a.map element_t.ref).map (fun r => (⟨0, r⟩ : element_t))),
      n % WORD, n % WORD⟩ := by
    cases qk with
    | mk d1 e1 r1 f1 =>
      simp only at he hr hf hdk
      rw [he, hr, hf, ← hRF, hdk, ← null_array a hnull]
  rw [← hq]

theorem list_three {α : Type} (l : List α) (h : l.length = 3) : ∃ x y z, l = [x, y, z] := by
  match l, h with
  | [x, y, z], _ => exact ⟨x, y, z, rfl⟩

theorem list_six {α : Type} (l : List α) (h : l.length = 6) :
    ∃ x0 x1 x2 x3 x4 x5, l = [x0, x1, x2, x3, x4, x5] := by
  match l, h with
  | [x0, x1, x2, x3, x4, x5], _ => exact ⟨x0, x1, x2, x3, x4, x5, rfl⟩

/-- Depth 3 after `2 ^ 64 - 1` enqueue/dequeue pairs: both cursors stand at
`2 ^ 64 - 1`, whose slot index is 0, and the next cursor value 0 has slot
index 0 again. -/
theorem wrap3 : ∃ s0 s1 s2 : Nat, ∀ fuel,
    exec (fuel + 1) ⟨3, some (List.replicate 3 ⟨0, 0⟩), 0, 0⟩
        (pairs (List.replicate (2 ^ 64 - 1) 1))
      = some (fifo_run 3 [] (pairs (List.replicate (2 ^ 64 - 1) 1)),
          ⟨3, some [⟨0, s0⟩, ⟨0, s1⟩, ⟨0, s2⟩], 18446744073709551615, 18446744073709551615⟩) := by
  obtain ⟨stamps, hlen, hx⟩ := wrap_state 3 (2 ^ 64 - 1) (by decide) (by decide) (by decide)
  obtain ⟨s0, s1, s2, hs⟩ := list_three stamps hlen
  subst hs
  have e : (2 ^ 64 - 1) % WORD = 18446744073709551615 := by decide
  rw [e] at hx
  exact ⟨s0, s1, s2, hx⟩

/-- Depth 6 after `2 ^ 64 - 3` enqueue/dequeue pairs: both cursors stand at
`2 ^ 64 - 3`, whose slot index is 1. -/
theorem wrap6 : ∃ s0 s1 s2 s3 s4 s5 : Nat, ∀ fuel,
    exec (fuel + 1) ⟨6, some (List.replicate 6 ⟨0, 0⟩), 0, 0⟩
        (pairs (List.replicate (2 ^ 64 - 3) 1))
      = some (fifo_run 6 [] (pairs (List.replicate (2 ^ 64 - 3) 1)),
          ⟨6, some [⟨0, s0⟩, ⟨0, s1⟩, ⟨0, s2⟩, ⟨0, s3⟩, ⟨0, s4⟩, ⟨0, s5⟩],
            18446744073709551613, 18446744073709551613⟩) := by
  obtain ⟨stamps, hlen, hx⟩ := wrap_state 6 (2 ^ 64 - 3) (by decide) (by decide) (by decide)
  obtain ⟨s0, s1, s2, s3, s4, s5, hs⟩ := list_six stamps hlen
  subst hs
  have e : (2 ^ 64 - 3) % WORD = 18446744073709551613 := by decide
  rw [e] at hx
  exact ⟨s0, s1, s2, s3, s4, s5, hx⟩

theorem payloads_wrap (n : Nat) (ops : List Op) (h : ∀ p ∈ payloads ops, p ≠ 0) :
    ∀ p ∈ payloads (pairs (List.replicate n 1) ++ ops), p ≠ 0 := by
  intro p hp
  rw [payloads_append, payloads_pairs] at hp
  rcases List.mem_append.mp hp with hp | hp
  · rw [(List.mem_replicate.mp hp).2]; decide
  · exact h p hp

/-! ### Depth 3 across the wrap of the cursors -/

theorem w3_enq1 (s0 s1 s2 fuel : Nat) :
    lfq_enqueue (fuel + 1)
        ⟨3, some [⟨0, s0⟩, ⟨0, s1⟩, ⟨0, s2⟩], 18446744073709551615, 18446744073709551615⟩ 1
      = Res.ret 1
        ⟨3, some [⟨1, (s0 + 1) % WORD⟩, ⟨0, s1⟩, ⟨0, s2⟩], 0, 18446744073709551615⟩ := by
  have h := enq_store 3 18446744073709551615 18446744073709551615 1
    [⟨0, s0⟩, ⟨0, s1⟩, ⟨0, s2⟩] ⟨0, s0⟩ (by decide) (by decide) (by simp) rfl fuel
  have e1 : (18446744073709551615 + 1) % WORD = 0 := by decide
  have e2 : 18446744073709551615 % 3 = 0 := by decide
  rw [e1, e2] at h
  exact h

theorem w3_enq2 (t0 s1 s2 fuel : Nat) :
    lfq_enqueue (fuel + 2) ⟨3, some [⟨1, t0⟩, ⟨0, s1⟩, ⟨0, s2⟩], 0, 18446744073709551615⟩ 2
      = Res.ret 1
        ⟨3, some [⟨1, t0⟩, ⟨2, (s1 + 1) % WORD⟩, ⟨0, s2⟩], 2, 18446744073709551615⟩ := by
  have h1 := enq_skip 3 0 18446744073709551615 2
    [⟨1, t0⟩, ⟨0, s1⟩, ⟨0, s2⟩] ⟨1, t0⟩ (by decide) (by decide) (by simp) (by simp) (fuel + 1)
  have h2 := enq_store 3 1 18446744073709551615 2
    [⟨1, t0⟩, ⟨0, s1⟩, ⟨0, s2⟩] ⟨0, s1⟩ (by decide) (by decide) (by simp) rfl fuel
  have e1 : (0 + 1) % WORD = 1 := by decide
  have e2 : (1 + 1) % WORD = 2 := by decide
  have e3 : 1 % 3 = 1 := by decide
  rw [e1] at h1
  rw [e2, e3] at h2
  rw [h1, h2]
  rfl

theorem w3_enq3 (t0 t1 s2 data fuel : Nat) :
    lfq_enqueue (fuel + 1) ⟨3, some [⟨1, t0⟩, ⟨2, t1⟩, ⟨0, s2⟩], 2, 18446744073709551615⟩ data
      = Res.ret 0 ⟨3, some [⟨1, t0⟩, ⟨2, t1⟩, ⟨0, s2⟩], 2, 18446744073709551615⟩ :=
  enq_full 3 2 18446744073709551615 data [⟨1, t0⟩, ⟨2, t1⟩, ⟨0, s2⟩] ⟨1, t0⟩
    (by decide) rfl (by decide) (by simp) (by simp) fuel

theorem w3_deq1 (t0 t1 s2 fuel : Nat) :
    lfq_dequeue (fuel + 1) ⟨3, some [⟨1, t0⟩, ⟨2, t1⟩, ⟨0, s2⟩], 2, 18446744073709551615⟩
      = Res.ret 1 ⟨3, some [⟨0, (t0 + 1) % WORD⟩, ⟨2, t1⟩, ⟨0, s2⟩], 2, 0⟩ := by
  have h := deq_take 3 2 18446744073709551615
    [⟨1, t0⟩, ⟨2, t1⟩, ⟨0, s2⟩] ⟨1, t0⟩ (by decide) (by decide) (by simp) (by simp) fuel
  have e1 : (18446744073709551615 + 1) % WORD = 0 := by decide
  have e2 : 18446744073709551615 % 3 = 0 := by decide
  rw [e1, e2] at h
  exact h

theorem w3_deq2 (u0 t1 s2 fuel : Nat) :
    lfq_dequeue (fuel + 2) ⟨3, some [⟨0, u0⟩, ⟨2, t1⟩, ⟨0, s2⟩], 2, 0⟩
      = Res.ret 2 ⟨3, some [⟨0, u0⟩, ⟨0, (t1 + 1) % WORD⟩, ⟨0, s2⟩], 2, 2⟩ := by
  have h1 := deq_skip 3 2 0 [⟨0, u0⟩, ⟨2, t1⟩, ⟨0, s2⟩] ⟨0, u0⟩
    (by decide) (by decide) (by simp) rfl (fuel + 1)
  have h2 := deq_take 3 2 1 [⟨0, u0⟩, ⟨2, t1⟩, ⟨0, s2⟩] ⟨2, t1⟩
    (by decide) (by decide) (by simp) (by simp) fuel
  have e1 : (0 + 1) % WORD = 1 := by decide
  have e2 : (1 + 1) % WORD = 2 := by decide
  have e3 : 1 % 3 = 1 := by decide
  rw [e1] at h1
  rw [e2, e3] at h2
  rw [h1, h2]
  rfl

theorem w3_deq2_one (u0 t1 s2 : Nat) :
    lfq_dequeue 1 ⟨3, some [⟨0, u0⟩, ⟨2, t1⟩, ⟨0, s2⟩], 2, 0⟩ = Res.spin := by
  have h1 := deq_skip 3 2 0 [⟨0, u0⟩, ⟨2, t1⟩, ⟨0, s2⟩] ⟨0, u0⟩
    (by decide) (by decide) (by simp) rfl 0
  rw [h1]
  rfl

/-! ### Depth 6 across the wrap of the cursors -/

theorem w6_fill (s0 s1 s2 s3 s4 s5 fuel : Nat) :
    exec (fuel + 1)
        ⟨6, some [⟨0, s0⟩, ⟨0, s1⟩, ⟨0, s2⟩, ⟨0, s3⟩, ⟨0, s4⟩, ⟨0, s5⟩],
          18446744073709551613, 18446744073709551613⟩
        [Op.enqueue 1, Op.enqueue 2, Op.enqueue 3, Op.enqueue 4]
      = some ([1, 1, 1, 1],
          ⟨6, some [⟨4, (s0 + 1) % WORD⟩, ⟨1, (s1 + 1) % WORD⟩, ⟨2, (s2 + 1) % WORD⟩,
              ⟨3, (s3 + 1) % WORD⟩, ⟨0, s4⟩, ⟨0, s5⟩], 1, 18446744073709551613⟩) := by
  have h1 := enq_store 6 18446744073709551613 18446744073709551613 1
    [⟨0, s0⟩, ⟨0, s1⟩, ⟨0, s2⟩, ⟨0, s3⟩, ⟨0, s4⟩, ⟨0, s5⟩] ⟨0, s1⟩
    (by decide) (by decide) (by simp) rfl fuel
  have h2 := enq_store 6 18446744073709551614 18446744073709551613 2
    [⟨0, s0⟩, ⟨1, (s1 + 1) % WORD⟩, ⟨0, s2⟩, ⟨0, s3⟩, ⟨0, s4⟩, ⟨0, s5⟩] ⟨0, s2⟩
    (by decide) (by decide) (by simp) rfl fuel
  have h3 := enq_store 6 18446744073709551615 18446744073709551613 3
    [⟨0, s0⟩, ⟨1, (s1 + 1) % WORD⟩, ⟨2, (s2 + 1) % WORD⟩, ⟨0, s3⟩, ⟨0, s4⟩, ⟨0, s5⟩] ⟨0, s3⟩
    (by decide) (by decide) (by simp) rfl fuel
  have h4 := enq_store 6 0 18446744073709551613 4
    [⟨0, s0⟩, ⟨1, (s1 + 1) % WORD⟩, ⟨2, (s2 + 1) % WORD⟩, ⟨3, (s3 + 1) % WORD⟩, ⟨0, s4⟩,
      ⟨0, s5⟩] ⟨0, s0⟩
    (by decide) (by decide) (by simp) rfl fuel
  have a1 : (18446744073709551613 + 1) % WORD = 18446744073709551614 := by decide
  have a2 : (18446744073709551614 + 1) % WORD = 18446744073709551615 := by decide
  have a3 : (18446744073709551615 + 1) % WORD = 0 := by decide
  have a4 : (0 + 1) % WORD = 1 := by decide
  have b1 : 18446744073709551613 % 6 = 1 := by decide
  have b2 : 18446744073709551614 % 6 = 2 := by decide
  have b3 : 18446744073709551615 % 6 = 3 := by decide
  have b4 : 0 % 6 = 0 := by decide
  rw [a1, b1] at h1
  rw [a2, b2] at h2
  rw [a3, b3] at h3
  rw [a4, b4] at h4
  exact exec_cons_ret h1 (exec_cons_ret h2 (exec_cons_ret h3 (exec_cons_ret h4 rfl)))

theorem w6_enq5 (t0 t1 t2 t3 s4 s5 data fuel : Nat) :
    lfq_enqueue (fuel + 3)
        ⟨6, some [⟨4, t0⟩, ⟨1, t1⟩, ⟨2, t2⟩, ⟨3, t3⟩, ⟨0, s4⟩, ⟨0, s5⟩],
          1, 18446744073709551613⟩ data
      = Res.ret 0 ⟨6, some [⟨4, t0⟩, ⟨1, t1⟩, ⟨2, t2⟩, ⟨3, t3⟩, ⟨0, s4⟩, ⟨0, s5⟩],
          3, 18446744073709551613⟩ := by
  have h1 := enq_skip 6 1 18446744073709551613 data
    [⟨4, t0⟩, ⟨1, t1⟩, ⟨2, t2⟩, ⟨3, t3⟩, ⟨0, s4⟩, ⟨0, s5⟩] ⟨1, t1⟩
    (by decide) (by decide) (by simp) (by simp) (fuel + 2)
  have h2 := enq_skip 6 2 18446744073709551613 data
    [⟨4, t0⟩, ⟨1, t1⟩, ⟨2, t2⟩, ⟨3, t3⟩, ⟨0, s4⟩, ⟨0, s5⟩] ⟨2, t2⟩
    (by decide) (by decide) (by simp) (by simp) (fuel + 1)
  have h3 := enq_full 6 3 18446744073709551613 data
    [⟨4, t0⟩, ⟨1, t1⟩, ⟨2, t2⟩, ⟨3, t3⟩, ⟨0, s4⟩, ⟨0, s5⟩] ⟨1, t1⟩
    (by decide) rfl (by decide) (by simp) (by simp) fuel
  have e1 : (1 + 1) % WORD = 2 := by decide
  have e2 : (2 + 1) % WORD = 3 := by decide
  rw [e1] at h1
  rw [e2] at h2
  rw [h1, h2, h3]

/-- The depth-6 scenario behind the counterexamples of C4 and C5: after
`2 ^ 64 - 3` enqueue/dequeue pairs and four accepted enqueues the queue holds
four payloads, `rear = 1`, `front = 2 ^ 64 - 3`, and the fifth enqueue returns
0 after moving `rear` to 3. -/
theorem wrap6_scenario : ∃ (rs : List Nat) (t0 t1 t2 t3 s4 s5 : Nat),
    Reached 6 (pairs (List.replicate (2 ^ 64 - 3) 1)
        ++ [Op.enqueue 1, Op.enqueue 2, Op.enqueue 3, Op.enqueue 4]) rs
      ⟨6, some [⟨4, t0⟩, ⟨1, t1⟩, ⟨2, t2⟩, ⟨3, t3⟩, ⟨0, s4⟩, ⟨0, s5⟩],
        1, 18446744073709551613⟩ ∧
    lfq_enqueue 3 ⟨6, some [⟨4, t0⟩, ⟨1, t1⟩, ⟨2, t2⟩, ⟨3, t3⟩, ⟨0, s4⟩, ⟨0, s5⟩],
        1, 18446744073709551613⟩ 5
      = Res.ret 0 ⟨6, some [⟨4, t0⟩, ⟨1, t1⟩, ⟨2, t2⟩, ⟨3, t3⟩, ⟨0, s4⟩, ⟨0, s5⟩],
        3, 18446744073709551613⟩ := by
  obtain ⟨s0, s1, s2, s3, s4, s5, hx⟩ := wrap6
  refine ⟨_, (s0 + 1) % WORD, (s1 + 1) % WORD, (s2 + 1) % WORD, (s3 + 1) % WORD, s4, s5,
    ⟨by decide, by decide, payloads_wrap _ _ (by decide), 1, _, rfl,
      exec_append 1 _ _ _ _ _ _ _ (hx 0) (w6_fill s0 s1 s2 s3 s4 s5 0)⟩,
    w6_enq5 _ _ _ _ _ _ 5 0⟩

/-- C4 (counterexample): depth 6, after `2 ^ 64 - 3` enqueue/dequeue pairs and
four accepted enqueues. The queue holds 4 of its 6 payloads and `rear` differs
from `front + depth`, yet `lfq_enqueue` returns 0. -/
theorem enqueue_full_iff_counterexample : ∃ (rs : List Nat) (q q1 : lfq_t),
    Reached 6 (pairs (List.replicate (2 ^ 64 - 3) 1)
        ++ [Op.enqueue 1, Op.enqueue 2, Op.enqueue 3, Op.enqueue 4]) rs q ∧
    q.depth = 6 ∧ occupied q = 4 ∧ q.rear ≠ (q.front + q.depth) % WORD ∧
    lfq_enqueue 3 q 5 = Res.ret 0 q1 := by
  obtain ⟨rs, t0, t1, t2, t3, s4, s5, hr, he⟩ := wrap6_scenario
  refine ⟨rs, _, _, hr, rfl, ?_, ?_, he⟩
  · simp [occupied, has_payload]
  · show (1 : Nat) ≠ (18446744073709551613 + 6) % WORD
    decide

/-- C5 (counterexample): in the same depth-6 state `lfq_enqueue` returns 0 and
leaves `rear` at 3 where it was 1: the state is modified. -/
theorem enqueue_full_unchanged_counterexample : ∃ (rs : List Nat) (q q1 : lfq_t),
    Reached 6 (pairs (List.replicate (2 ^ 64 - 3) 1)
        ++ [Op.enqueue 1, Op.enqueue 2, Op.enqueue 3, Op.enqueue 4]) rs q ∧
    lfq_enqueue 3 q 5 = Res.ret 0 q1 ∧ q.rear = 1 ∧ q1.rear = 3 ∧ q1 ≠ q := by
  obtain ⟨rs, t0, t1, t2, t3, s4, s5, hr, he⟩ := wrap6_scenario
  refine ⟨rs, _, _, hr, he, rfl, rfl, ?_⟩
  intro h
  have h1 := congrArg lfq_t.rear h
  simp at h1

/-- C6 (counterexample): depth 3, `2 ^ 64 - 1` enqueue/dequeue pairs followed
by three enqueues. The code answers the three enqueues 1, 1, 0 where the
abstract FIFO of capacity 3 answers 1, 1, 1. -/
theorem single_thread_refines_fifo_counterexample : ∃ (rs : List Nat) (q : lfq_t),
    lfq_create true true 3 = some ⟨3, some (List.replicate 3 ⟨0, 0⟩), 0, 0⟩ ∧
    exec 2 ⟨3, some (List.replicate 3 ⟨0, 0⟩), 0, 0⟩
        (pairs (List.replicate (2 ^ 64 - 1) 1)
          ++ [Op.enqueue 1, Op.enqueue 2, Op.enqueue 3]) = some (rs, q) ∧
    rs = fifo_run 3 [] (pairs (List.replicate (2 ^ 64 - 1) 1)) ++ [1, 1, 0] ∧
    fifo_run 3 [] (pairs (List.replicate (2 ^ 64 - 1) 1)
        ++ [Op.enqueue 1, Op.enqueue 2, Op.enqueue 3])
      = fifo_run 3 [] (pairs (List.replicate (2 ^ 64 - 1) 1)) ++ [1, 1, 1] ∧
    rs ≠ fifo_run 3 [] (pairs (List.replicate (2 ^ 64 - 1) 1)
        ++ [Op.enqueue 1, Op.enqueue 2, Op.enqueue 3]) := by
  obtain ⟨s0, s1, s2, hx⟩ := wrap3
  have htail := exec_cons_enq (w3_enq1 s0 s1 s2 1)
    (exec_cons_enq (w3_enq2 ((s0 + 1) % WORD) s1 s2 0)
      (exec_cons_enq
        (w3_enq3 ((s0 + 1) % WORD) ((s1 + 1) % WORD) s2 3 1) (exec_nil _ _)))
  have hfifo : fifo_run 3 [] (pairs (List.replicate (2 ^ 64 - 1) 1)
        ++ [Op.enqueue 1, Op.enqueue 2, Op.enqueue 3])
      = fifo_run 3 [] (pairs (List.replicate (2 ^ 64 - 1) 1)) ++ [1, 1, 1] := by
    rw [fifo_run_append, (fifo_pairs 3 (by decide) _).1]
    rfl
  refine ⟨_, _, rfl, exec_append 2 _ _ _ _ _ _ _ (hx 1) htail, rfl, hfifo, ?_⟩
  rw [hfifo]
  intro h
  have := List.append_cancel_left h
  simp at this

/-- C7 (counterexample): depth 3, after `2 ^ 64 - 1` enqueue/dequeue pairs,
two accepted enqueues and one dequeue. `front` differs from `rear`, slot
`front % depth` holds no payload, one iteration does not return, and the call
returns payload 2 taken from another slot with `front` advanced by two. -/
theorem dequeue_nonempty_counterexample :
    ∃ (rs : List Nat) (q q1 : lfq_t) (a : List element_t) (old : element_t),
    Reached 3 (pairs (List.replicate (2 ^ 64 - 1) 1)
        ++ [Op.enqueue 1, Op.enqueue 2, Op.dequeue]) rs q ∧
    q.front ≠ q.rear ∧ q.e = some a ∧ a[q.front % q.depth]? = some old ∧ old.ptr = 0 ∧
    lfq_dequeue 1 q = Res.spin ∧ lfq_dequeue 2 q = Res.ret 2 q1 ∧
    q1.front = (q.front + 2) % WORD := by
  obtain ⟨s0, s1, s2, hx⟩ := wrap3
  have htail := exec_cons_enq (w3_enq1 s0 s1 s2 1)
    (exec_cons_enq (w3_enq2 ((s0 + 1) % WORD) s1 s2 0)
      (exec_cons_deq
        (w3_deq1 ((s0 + 1) % WORD) ((s1 + 1) % WORD) s2 1) (exec_nil _ _)))
  refine ⟨_, _, _, _, ⟨0, ((s0 + 1) % WORD + 1) % WORD⟩,
    ⟨by decide, by decide, payloads_wrap _ _ (by decide), 2, _, rfl,
      exec_append 2 _ _ _ _ _ _ _ (hx 1) htail⟩,
    ?_, rfl, ?_, rfl, w3_deq2_one _ _ _, w3_deq2 _ _ _ 0, ?_⟩
  · show (0 : Nat) ≠ 2
    decide
  · simp
  · show (2 : Nat) = (0 + 2) % WORD
    decide

/-- C8 (counterexample): depth 3, after `2 ^ 64 - 1` enqueue/dequeue pairs and
one accepted enqueue. The queue is not full; `lfq_enqueue` needs two
iterations, leaves slot `rear % depth` with its old payload 1, stores the new
payload elsewhere and advances `rear` by two. -/
theorem enqueue_not_full_counterexample :
    ∃ (rs : List Nat) (q q1 : lfq_t) (a1 : List element_t) (kept : element_t),
    Reached 3 (pairs (List.replicate (2 ^ 64 - 1) 1) ++ [Op.enqueue 1]) rs q ∧
    q.rear ≠ (q.front + q.depth) % WORD ∧
    lfq_enqueue 2 q 2 = Res.ret 1 q1 ∧
    q1.rear = (q.rear + 2) % WORD ∧ q1.rear ≠ (q.rear + 1) % WORD ∧
    q1.e = some a1 ∧ a1[q.rear % q.depth]? = some kept ∧ kept.ptr = 1 := by
  obtain ⟨s0, s1, s2, hx⟩ := wrap3
  have htail := exec_cons_enq (w3_enq1 s0 s1 s2 0)
    (exec_nil _ _)
  refine ⟨_, _, _, _, ⟨1, (s0 + 1) % WORD⟩,
    ⟨by decide, by decide, payloads_wrap _ _ (by decide), 1, _, rfl,
      exec_append 1 _ _ _ _ _ _ _ (hx 0) htail⟩,
    ?_, w3_enq2 _ _ _ 0, ?_, ?_, rfl, ?_, rfl⟩
  · show (0 : Nat) ≠ (18446744073709551615 + 3) % WORD
    decide
  · show (2 : Nat) = (0 + 2) % WORD
    decide
  · show (2 : Nat) ≠ (0 + 1) % WORD
    decide
  · simp

/-- C10 (counterexample): depth 3 and `k = 6148914691236517205`, so that
`k * depth = 2 ^ 64 - 1`. After the pairs, three enqueues are answered 1, 1, 0;
on a fresh queue of depth 3 they are answered 1, 1, 1. -/
theorem wraparound_indistinguishable_counterexample : ∃ (rs : List Nat) (qk : lfq_t),
    lfq_create true true 3 = some ⟨3, some (List.replicate 3 ⟨0, 0⟩), 0, 0⟩ ∧
    (∀ fuel, exec (fuel + 1) ⟨3, some (List.replicate 3 ⟨0, 0⟩), 0, 0⟩
        (pairs (List.replicate (6148914691236517205 * 3) 1)) = some (rs, qk)) ∧
    (exec 2 qk [Op.enqueue 1, Op.enqueue 2, Op.enqueue 3]).map Prod.fst = some [1, 1, 0] ∧
    (exec 2 ⟨3, some (List.replicate 3 ⟨0, 0⟩), 0, 0⟩
        [Op.enqueue 1, Op.enqueue 2, Op.enqueue 3]).map Prod.fst = some [1, 1, 1] := by
  obtain ⟨s0, s1, s2, hx⟩ := wrap3
  have hk : 6148914691236517205 * 3 = 2 ^ 64 - 1 := by decide
  have htail := exec_cons_enq (w3_enq1 s0 s1 s2 1)
    (exec_cons_enq (w3_enq2 ((s0 + 1) % WORD) s1 s2 0)
      (exec_cons_enq
        (w3_enq3 ((s0 + 1) % WORD) ((s1 + 1) % WORD) s2 3 1) (exec_nil _ _)))
  rw [hk]
  refine ⟨_, _, rfl, hx, ?_, by decide⟩
  rw [htail]
  rfl

/-! ## Construction, slot indices, cursor arithmetic -/

/-- C11 (evaluation of the code): when `malloc` fails `lfq_create` returns
`NULL`; when `malloc` succeeds and `calloc` fails it returns a handle all the
same, with `depth` stored, both cursors 0 and the slot array pointer `NULL`,
and every call of `lfq_enqueue` or `lfq_dequeue` on that handle traps in its
first iteration, at the read of a slot through the null pointer. -/
theorem create_calloc_failure_unchecked (depth : Nat) :
    (∀ calloc_ok, lfq_create false calloc_ok depth = none) ∧
    lfq_create true false depth = some ⟨depth, none, 0, 0⟩ ∧
    (∀ fuel data, lfq_enqueue (fuel + 1) ⟨depth, none, 0, 0⟩ data = Res.trap) ∧
    (∀ fuel, lfq_dequeue (fuel + 1) ⟨depth, none, 0, 0⟩ = Res.trap) := by
  refine ⟨fun _ => rfl, rfl, ?_, ?_⟩
  · intro fuel data
    by_cases h : depth = 0 <;> simp [lfq_enqueue, enqueue_iter, slot, h]
  · intro fuel
    by_cases h : depth = 0 <;> simp [lfq_dequeue, dequeue_iter, slot, h]

/-- C17: `lfq_create(0)` succeeds, and on the queue it returns every call of
`lfq_enqueue` and of `lfq_dequeue` traps in its first iteration, at the slot
index taken modulo `depth = 0`; for every `depth ≥ 1` and every cursor value
the slot index `cursor % depth` is below `depth`, and on a created queue the
slot read at that index is defined. -/
theorem slot_index_defined :
    lfq_create true true 0 = some ⟨0, some [], 0, 0⟩ ∧
    (∀ fuel data, lfq_enqueue (fuel + 1) ⟨0, some [], 0, 0⟩ data = Res.trap) ∧
    (∀ fuel, lfq_dequeue (fuel + 1) ⟨0, some [], 0, 0⟩ = Res.trap) ∧
    (∀ (a : Option (List element_t)) (r f c : Nat), slot ⟨0, a, r, f⟩ c = none) ∧
    (∀ depth cursor q, 1 ≤ depth → lfq_create true true depth = some q →
      cursor % depth < depth ∧ slot q cursor = some ⟨0, 0⟩) := by
  refine ⟨rfl, fun _ _ => rfl, fun _ => rfl, fun _ _ _ _ => rfl, ?_⟩
  intro depth cursor q hd hq
  have hlt : cursor % depth < depth := Nat.mod_lt _ hd
  refine ⟨hlt, ?_⟩
  simp only [lfq_create, if_true, Option.some.injEq] at hq
  subst hq
  have hi : cursor % depth < (List.replicate depth (⟨0, 0⟩ : element_t)).length := by
    simpa using hlt
  rw [@slot_of_array ⟨depth, some (List.replicate depth ⟨0, 0⟩), 0, 0⟩ _ rfl hd cursor]
  show (List.replicate depth (⟨0, 0⟩ : element_t))[cursor % depth]? = some ⟨0, 0⟩
  rw [List.getElem?_eq_getElem hi]
  simp

theorem slot_index_defined_witness :
    1 ≤ 3 ∧ lfq_create true true 3 = some ⟨3, some (List.replicate 3 ⟨0, 0⟩), 0, 0⟩ ∧
    18446744073709551615 % 3 < 3 ∧
    slot ⟨3, some (List.replicate 3 ⟨0, 0⟩), 0, 0⟩ 18446744073709551615 = some ⟨0, 0⟩ :=
  ⟨by decide, rfl,
    slot_index_defined.2.2.2.2 3 18446744073709551615 ⟨3, some (List.replicate 3 ⟨0, 0⟩), 0, 0⟩
      (by decide) rfl⟩

/-- C20: for a slot count `depth ≥ 1`, stepping a 64-bit cursor `c` to
`(c + 1) % 2 ^ 64` moves its slot index to the next ring position for every
cursor value exactly when `depth` divides `2 ^ 64`; whatever the depth, the
only cursor value at which the ring order can break is `2 ^ 64 - 1`, the one
that wraps to 0, and there it breaks for every depth that does not divide
`2 ^ 64`. -/
theorem cursor_ring_order (depth : Nat) (_hd : 1 ≤ depth) :
    ((∀ c, c < WORD → ((c + 1) % WORD) % depth = ((c % depth) + 1) % depth) ↔ depth ∣ WORD) ∧
    (∀ c, c + 1 < WORD → ((c + 1) % WORD) % depth = ((c % depth) + 1) % depth) ∧
    (¬ depth ∣ WORD →
      (((WORD - 1) + 1) % WORD) % depth ≠ (((WORD - 1) % depth) + 1) % depth) := by
  have hlast : (((WORD - 1) % depth) + 1) % depth = WORD % depth := by
    rw [Nat.mod_add_mod]
    have : WORD - 1 + 1 = WORD := by unfold WORD; decide
    rw [this]
  have hzero : (((WORD - 1) + 1) % WORD) % depth = 0 := by
    have : (WORD - 1 + 1) % WORD = 0 := by unfold WORD; decide
    rw [this, Nat.zero_mod]
  refine ⟨⟨?_, ?_⟩, ?_, ?_⟩
  · intro h
    have h1 := h (WORD - 1) (by unfold WORD; decide)
    rw [hzero, hlast] at h1
    exact Nat.dvd_of_mod_eq_zero h1.symm
  · intro hdvd c _
    rw [Nat.mod_mod_of_dvd _ hdvd, Nat.mod_add_mod]
  · intro c hc
    rw [Nat.mod_eq_of_lt hc, Nat.mod_add_mod]
  · intro hnd h
    rw [hzero, hlast] at h
    exact hnd (Nat.dvd_of_mod_eq_zero h.symm)

theorem cursor_ring_order_witness :
    1 ≤ 3 ∧
    ((∀ c, c < WORD → ((c + 1) % WORD) % 3 = ((c % 3) + 1) % 3) ↔ 3 ∣ WORD) ∧
    (∀ c, c + 1 < WORD → ((c + 1) % WORD) % 3 = ((c % 3) + 1) % 3) ∧
    (¬ 3 ∣ WORD → (((WORD - 1) + 1) % WORD) % 3 ≠ (((WORD - 1) % 3) + 1) % 3) :=
  ⟨by decide, cursor_ring_order 3 (by decide)⟩

/-! ## Cursor window and slot conservation -/

theorem abs_size {q : lfq_t} {R F : Nat} {l : List Nat} (h : Abs q R F l) :
    (q.rear + WORD - q.front) % WORD = l.length := by
  obtain ⟨_, hw, hr, hf, hRF, hle, _⟩ := h
  rw [hr, hf, hRF]
  generalize l.length = n at *
  unfold WORD at *
  omega

theorem count_split : ∀ a : List element_t,
    a.countP (fun s => decide (s.ptr = 0)) + a.countP has_payload = a.length := by
  intro a
  induction a with
  | nil => rfl
  | cons s t ih =>
    simp only [List.countP_cons, List.length_cons, has_payload]
    by_cases h : s.ptr = 0
    · simp [h]
      simp only [has_payload] at ih
      omega
    · simp [h]
      simp only [has_payload] at ih
      omega

theorem abs_vacant {q : lfq_t} {R F : Nat} {l : List Nat} (h : Abs q R F l) :
    vacant q = q.depth - l.length := by
  obtain ⟨_, _, _, _, _, _, _, _, a, he, hlen, hc, _⟩ := h
  have := count_split a
  simp only [vacant, he]
  omega

/-- What is known of a state reached with fewer than `2 ^ 64` enqueue calls:
the cursors are the unreduced counts. -/
theorem reached_abs_count {depth : Nat} {ops : List Op} {rs : List Nat} {q : lfq_t}
    (hr : Reached depth ops rs q) (hn : (payloads ops).length < WORD) :
    ∃ R F, Abs q R F (fifo_final depth [] ops) ∧ R < WORD := by
  obtain ⟨hd, hlt, hp, fuel, q0, hq0, hex⟩ := hr
  have h0 := abs_create hd hlt hq0
  have hdep : q0.depth = depth := create_depth hq0
  have hR : q0.depth ∣ WORD ∨ 0 + (payloads ops).length ≤ WORD := by
    right; omega
  obtain ⟨_, _, _, F1, h4⟩ := exec_sound ops q0 0 0 [] fuel rs q h0 hp hR hex
  rw [hdep] at h4
  refine ⟨_, F1, h4, ?_⟩
  have := fifo_accepts_le depth ops []
  omega

/-- C14 (amended): in every state reached without cursor wraparound (fewer
than `2 ^ 64` enqueue calls so far, or `depth` dividing `2 ^ 64`) the number
of slots whose payload is `NULL` is `depth - (rear - front)`, the difference
taken in 64-bit arithmetic, and the number of occupied slots is `rear -
front`. -/
theorem vacant_conservation (depth : Nat) (ops : List Op) (rs : List Nat) (q : lfq_t)
    (hr : Reached depth ops rs q) (hw : NoWrap depth ops) :
    vacant q = q.depth - (q.rear + WORD - q.front) % WORD ∧
    occupied q = (q.rear + WORD - q.front) % WORD := by
  obtain ⟨_, _, _, R, F, habs, _⟩ := reached_abs hr hw
  rw [abs_size habs]
  exact ⟨abs_vacant habs, abs_occupied habs⟩

theorem vacant_conservation_witness :
    Reached 2 [Op.enqueue 5] [1] ⟨2, some [⟨5, 1⟩, ⟨0, 0⟩], 1, 0⟩ ∧ NoWrap 2 [Op.enqueue 5] ∧
    vacant ⟨2, some [⟨5, 1⟩, ⟨0, 0⟩], 1, 0⟩
      = (⟨2, some [⟨5, 1⟩, ⟨0, 0⟩], 1, 0⟩ : lfq_t).depth
        - ((⟨2, some [⟨5, 1⟩, ⟨0, 0⟩], 1, 0⟩ : lfq_t).rear + WORD
          - (⟨2, some [⟨5, 1⟩, ⟨0, 0⟩], 1, 0⟩ : lfq_t).front) % WORD ∧
    occupied ⟨2, some [⟨5, 1⟩, ⟨0, 0⟩], 1, 0⟩
      = ((⟨2, some [⟨5, 1⟩, ⟨0, 0⟩], 1, 0⟩ : lfq_t).rear + WORD
          - (⟨2, some [⟨5, 1⟩, ⟨0, 0⟩], 1, 0⟩ : lfq_t).front) % WORD :=
  ⟨⟨by decide, by decide, by decide, 1, ⟨2, some [⟨0, 0⟩, ⟨0, 0⟩], 0, 0⟩, rfl, rfl⟩,
    Or.inr (by decide),
    vacant_conservation 2 [Op.enqueue 5] [1] ⟨2, some [⟨5, 1⟩, ⟨0, 0⟩], 1, 0⟩
      ⟨by decide, by decide, by decide, 1, ⟨2, some [⟨0, 0⟩, ⟨0, 0⟩], 0, 0⟩, rfl, rfl⟩
      (Or.inr (by decide))⟩

/-- C18 (amended): in every state reached without cursor wraparound that is
not full, `lfq_enqueue(q, NULL)` returns 1 after one iteration; the state it
leaves has `rear` advanced by one and slot `rear % depth` set to `(NULL,
stamp + 1)`, its payload still `NULL`, so that the 64-bit difference `rear -
front` exceeds the number of occupied slots. -/
theorem enqueue_null_accepted (depth : Nat) (ops : List Op) (rs : List Nat) (q : lfq_t)
    (fuel : Nat) (hr : Reached depth ops rs q) (hw : NoWrap depth ops)
    (hnf : q.rear ≠ (q.front + q.depth) % WORD) :
    ∃ a old, q.e = some a ∧ a[q.rear % q.depth]? = some old ∧ old.ptr = 0 ∧
      lfq_enqueue (fuel + 1) q 0 = Res.ret 1
        { q with e := some (a.set (q.rear % q.depth) ⟨0, (old.ref + 1) % WORD⟩),
                 rear := (q.rear + 1) % WORD } ∧
      occupied { q with e := some (a.set (q.rear % q.depth) ⟨0, (old.ref + 1) % WORD⟩),
                        rear := (q.rear + 1) % WORD }
        < ((q.rear + 1) % WORD + WORD - q.front) % WORD := by
  obtain ⟨hdep, _, _, R, F, habs, hR⟩ := reached_abs hr hw
  rw [← hdep] at hR
  by_cases hl : (fifo_final depth [] ops).length < q.depth
  · obtain ⟨a, old, he, hold, hptr, _, hit, _⟩ := abs_enqueue_store habs hl hR 0
    refine ⟨a, old, he, hold, hptr, lfq_enqueue_of_iter hit fuel, ?_⟩
    have hsz := abs_size habs
    obtain ⟨_, h2, h3, h4, h5, _, _, _, a', he', _, hc, _⟩ := habs
    rw [he] at he'
    cases he'
    have hcnt := countP_set has_payload a (q.rear % q.depth) ⟨0, (old.ref + 1) % WORD⟩ old hold
    have h1 : has_payload old = false := by simp [has_payload, hptr]
    have h2' : has_payload ⟨0, (old.ref + 1) % WORD⟩ = false := by simp [has_payload]
    rw [h1, h2'] at hcnt
    simp only [Bool.false_eq_true, if_false, Nat.add_zero] at hcnt
    show List.countP has_payload (a.set (q.rear % q.depth) ⟨0, (old.ref + 1) % WORD⟩) < _
    rw [hcnt, hc]
    rw [h3, h4] at hsz ⊢
    generalize (fifo_final depth [] ops).length = n at *
    unfold WORD at *
    omega
  · have hfull : (fifo_final depth [] ops).length = q.depth :=
      Nat.le_antisymm habs.2.2.2.2.2.1 (Nat.le_of_not_lt hl)
    exact absurd (abs_enqueue_full habs hfull 0).1 hnf

theorem enqueue_null_accepted_witness :
    Reached 2 [Op.enqueue 5] [1] ⟨2, some [⟨5, 1⟩, ⟨0, 0⟩], 1, 0⟩ ∧ NoWrap 2 [Op.enqueue 5] ∧
    (⟨2, some [⟨5, 1⟩, ⟨0, 0⟩], 1, 0⟩ : lfq_t).rear
      ≠ ((⟨2, some [⟨5, 1⟩, ⟨0, 0⟩], 1, 0⟩ : lfq_t).front
          + (⟨2, some [⟨5, 1⟩, ⟨0, 0⟩], 1, 0⟩ : lfq_t).depth) % WORD ∧
    lfq_enqueue 1 ⟨2, some [⟨5, 1⟩, ⟨0, 0⟩], 1, 0⟩ 0
      = Res.ret 1 ⟨2, some [⟨5, 1⟩, ⟨0, 1⟩], 2, 0⟩ ∧
    ∃ a old, (⟨2, some [⟨5, 1⟩, ⟨0, 0⟩], 1, 0⟩ : lfq_t).e = some a ∧
      a[(⟨2, some [⟨5, 1⟩, ⟨0, 0⟩], 1, 0⟩ : lfq_t).rear
        % (⟨2, some [⟨5, 1⟩, ⟨0, 0⟩], 1, 0⟩ : lfq_t).depth]? = some old ∧ old.ptr = 0 ∧
      lfq_enqueue (0 + 1) ⟨2, some [⟨5, 1⟩, ⟨0, 0⟩], 1, 0⟩ 0 = Res.ret 1
        { (⟨2, some [⟨5, 1⟩, ⟨0, 0⟩], 1, 0⟩ : lfq_t) with
          e := some (a.set ((⟨2, some [⟨5, 1⟩, ⟨0, 0⟩], 1, 0⟩ : lfq_t).rear
            % (⟨2, some [⟨5, 1⟩, ⟨0, 0⟩], 1, 0⟩ : lfq_t).depth) ⟨0, (old.ref + 1) % WORD⟩),
          rear := ((⟨2, some [⟨5, 1⟩, ⟨0, 0⟩], 1, 0⟩ : lfq_t).rear + 1) % WORD } ∧
      occupied { (⟨2, some [⟨5, 1⟩, ⟨0, 0⟩], 1, 0⟩ : lfq_t) with
          e := some (a.set ((⟨2, some [⟨5, 1⟩, ⟨0, 0⟩], 1, 0⟩ : lfq_t).rear
            % (⟨2, some [⟨5, 1⟩, ⟨0, 0⟩], 1, 0⟩ : lfq_t).depth) ⟨0, (old.ref + 1) % WORD⟩),
          rear := ((⟨2, some [⟨5, 1⟩, ⟨0, 0⟩], 1, 0⟩ : lfq_t).rear + 1) % WORD }
        < (((⟨2, some [⟨5, 1⟩, ⟨0, 0⟩], 1, 0⟩ : lfq_t).rear + 1) % WORD + WORD
            - (⟨2, some [⟨5, 1⟩, ⟨0, 0⟩], 1, 0⟩ : lfq_t).front) % WORD :=
  ⟨⟨by decide, by decide, by decide, 1, ⟨2, some [⟨0, 0⟩, ⟨0, 0⟩], 0, 0⟩, rfl, rfl⟩,
    Or.inr (by decide), by decide, rfl,
    enqueue_null_accepted 2 [Op.enqueue 5] [1] ⟨2, some [⟨5, 1⟩, ⟨0, 0⟩], 1, 0⟩ 0
      ⟨by decide, by decide, by decide, 1, ⟨2, some [⟨0, 0⟩, ⟨0, 0⟩], 0, 0⟩, rfl, rfl⟩
      (Or.inr (by decide)) (by decide)⟩

/-- Depth 1 after `2 ^ 64 - 1` enqueue/dequeue pairs: both cursors stand at
`2 ^ 64 - 1`. -/
theorem wrap1 : ∃ s0 : Nat, ∀ fuel,
    exec (fuel + 1) ⟨1, some (List.replicate 1 ⟨0, 0⟩), 0, 0⟩
        (pairs (List.replicate (2 ^ 64 - 1) 1))
      = some (fifo_run 1 [] (pairs (List.replicate (2 ^ 64 - 1) 1)),
          ⟨1, some [⟨0, s0⟩], 18446744073709551615, 18446744073709551615⟩) := by
  obtain ⟨stamps, hlen, hx⟩ := wrap_state 1 (2 ^ 64 - 1) (by decide) (by decide) (by decide)
  match stamps, hlen with
  | [s0], _ =>
    have e : (2 ^ 64 - 1) % WORD = 18446744073709551615 := by decide
    rw [e] at hx
    exact ⟨s0, hx⟩

theorem w1_enq1 (s0 fuel : Nat) :
    lfq_enqueue (fuel + 1)
        ⟨1, some [⟨0, s0⟩], 18446744073709551615, 18446744073709551615⟩ 1
      = Res.ret 1 ⟨1, some [⟨1, (s0 + 1) % WORD⟩], 0, 18446744073709551615⟩ := by
  have h := enq_store 1 18446744073709551615 18446744073709551615 1
    [⟨0, s0⟩] ⟨0, s0⟩ (by decide) (by decide) (by simp) rfl fuel
  have e1 : (18446744073709551615 + 1) % WORD = 0 := by decide
  have e2 : 18446744073709551615 % 1 = 0 := by decide
  rw [e1, e2] at h
  exact h

/-- C13 (counterexample): depth 1, `2 ^ 64 - 1` enqueue/dequeue pairs and one
more accepted enqueue. The 64-bit cursor `rear` has wrapped to 0 while `front`
is `2 ^ 64 - 1`: `front ≤ rear` is false. -/
theorem cursor_window_counterexample : ∃ (rs : List Nat) (q : lfq_t),
    Reached 1 (pairs (List.replicate (2 ^ 64 - 1) 1) ++ [Op.enqueue 1]) rs q ∧
    q.rear = 0 ∧ q.front = 18446744073709551615 ∧
    ¬ (q.front ≤ q.rear ∧ q.rear ≤ q.front + q.depth) := by
  obtain ⟨s0, hx⟩ := wrap1
  have htail := exec_cons_enq (w1_enq1 s0 0) (exec_nil _ _)
  refine ⟨_, _, ⟨by decide, by decide, payloads_wrap _ _ (by decide), 1, _, rfl,
      exec_append 1 _ _ _ _ _ _ _ (hx 0) htail⟩, rfl, rfl, ?_⟩
  show ¬ ((18446744073709551615 : Nat) ≤ 0 ∧ 0 ≤ 18446744073709551615 + 1)
  decide

/-- C14 (counterexample): depth 3, `2 ^ 64 - 1` enqueue/dequeue pairs and two
accepted enqueues. One slot is `NULL`, while `rear - front` is 3 in 64-bit
arithmetic, so that `depth - (rear - front)` is 0. -/
theorem vacant_conservation_counterexample : ∃ (rs : List Nat) (q : lfq_t),
    Reached 3 (pairs (List.replicate (2 ^ 64 - 1) 1) ++ [Op.enqueue 1, Op.enqueue 2]) rs q ∧
    vacant q = 1 ∧ (q.rear + WORD - q.front) % WORD = 3 ∧
    q.depth - (q.rear + WORD - q.front) % WORD = 0 := by
  obtain ⟨s0, s1, s2, hx⟩ := wrap3
  have htail := exec_cons_enq (w3_enq1 s0 s1 s2 1)
    (exec_cons_enq (w3_enq2 ((s0 + 1) % WORD) s1 s2 0) (exec_nil _ _))
  refine ⟨_, _, ⟨by decide, by decide, payloads_wrap _ _ (by decide), 2, _, rfl,
      exec_append 2 _ _ _ _ _ _ _ (hx 1) htail⟩, ?_, ?_, ?_⟩
  · simp [vacant]
  · show (2 + WORD - 18446744073709551615) % WORD = 3
    decide
  · show 3 - (2 + WORD - 18446744073709551615) % WORD = 0
    decide

theorem w3_enq2_any (t0 s1 s2 data fuel : Nat) :
    lfq_enqueue (fuel + 2) ⟨3, some [⟨1, t0⟩, ⟨0, s1⟩, ⟨0, s2⟩], 0, 18446744073709551615⟩ data
      = Res.ret 1
        ⟨3, some [⟨1, t0⟩, ⟨data, (s1 + 1) % WORD⟩, ⟨0, s2⟩], 2, 18446744073709551615⟩ := by
  have h1 := enq_skip 3 0 18446744073709551615 data
    [⟨1, t0⟩, ⟨0, s1⟩, ⟨0, s2⟩] ⟨1, t0⟩ (by decide) (by decide) (by simp) (by simp) (fuel + 1)
  have h2 := enq_store 3 1 18446744073709551615 data
    [⟨1, t0⟩, ⟨0, s1⟩, ⟨0, s2⟩] ⟨0, s1⟩ (by decide) (by decide) (by simp) rfl fuel
  have e1 : (0 + 1) % WORD = 1 := by decide
  have e2 : (1 + 1) % WORD = 2 := by decide
  have e3 : 1 % 3 = 1 := by decide
  rw [e1] at h1
  rw [e2, e3] at h2
  rw [h1, h2]
  rfl

/-- C18 (counterexample): depth 3, after `2 ^ 64 - 1` enqueue/dequeue pairs
and one accepted enqueue. The queue is not full; `lfq_enqueue(q, NULL)`
returns 1 but leaves slot `rear % depth`, stamp included, as it was, bumps the
stamp of another slot and advances `rear` by two. -/
theorem enqueue_null_accepted_counterexample :
    ∃ (rs : List Nat) (q q1 : lfq_t) (a a1 : List element_t) (s : element_t),
    Reached 3 (pairs (List.replicate (2 ^ 64 - 1) 1) ++ [Op.enqueue 1]) rs q ∧
    q.rear ≠ (q.front + q.depth) % WORD ∧
    lfq_enqueue 2 q 0 = Res.ret 1 q1 ∧
    q1.rear = (q.rear + 2) % WORD ∧ q1.rear ≠ (q.rear + 1) % WORD ∧
    q.e = some a ∧ q1.e = some a1 ∧
    a[q.rear % q.depth]? = some s ∧ a1[q.rear % q.depth]? = some s := by
  obtain ⟨s0, s1, s2, hx⟩ := wrap3
  have htail := exec_cons_enq (w3_enq1 s0 s1 s2 0) (exec_nil _ _)
  refine ⟨_, _, _, _, _, ⟨1, (s0 + 1) % WORD⟩,
    ⟨by decide, by decide, payloads_wrap _ _ (by decide), 1, _, rfl,
      exec_append 1 _ _ _ _ _ _ _ (hx 0) htail⟩,
    ?_, w3_enq2_any _ _ _ 0 0, ?_, ?_, rfl, rfl, ?_, ?_⟩
  · show (0 : Nat) ≠ (18446744073709551615 + 3) % WORD
    decide
  · show (2 : Nat) = (0 + 2) % WORD
    decide
  · show (2 : Nat) ≠ (0 + 1) % WORD
    decide
  · simp
  · simp

theorem cas_slot_result {q q1 : lfq_t} {c : Nat} {o n : element_t} {b : Bool}
    (h : cas_slot q c o n = some (b, q1)) :
    (b = false ∧ q1 = q) ∨
    (b = true ∧ ∃ a, q.e = some a ∧ a[c % q.depth]? = some o ∧
      q1 = { q with e := some (a.set (c % q.depth) n) }) := by
  unfold cas_slot at h
  split at h
  · simp at h
  · split at h
    · simp at h
    · rename_i a he
      split at h
      · simp at h
      · rename_i cur hcur
        split at h
        · rename_i hco
          simp only [Option.some.injEq, Prod.mk.injEq] at h
          right
          exact ⟨h.1.symm, a, he, by rw [hcur, hco], h.2.symm⟩
        · simp only [Option.some.injEq, Prod.mk.injEq] at h
          left
          exact ⟨h.1.symm, h.2.symm⟩

theorem cas_rear_fields (q : lfq_t) (o n : Nat) :
    (cas_rear q o n).e = q.e ∧ (cas_rear q o n).depth = q.depth := by
  unfold cas_rear
  split <;> exact ⟨rfl, rfl⟩

theorem cas_front_fields (q : lfq_t) (o n : Nat) :
    (cas_front q o n).e = q.e ∧ (cas_front q o n).depth = q.depth := by
  unfold cas_front
  split <;> exact ⟨rfl, rfl⟩

theorem enqueue_iter_writes (q : lfq_t) (data : Nat) :
    (∀ q1, enqueue_iter q data = Step.cont q1 → q1.e = q.e ∧ q1.depth = q.depth) ∧
    (∀ v q1, enqueue_iter q data = Step.ret v q1 → q1.depth = q.depth ∧
      (q1.e = q.e ∨ ∃ a old, q.e = some a ∧ a[q.rear % q.depth]? = some old ∧ old.ptr = 0 ∧
        q1.e = some (a.set (q.rear % q.depth) ⟨data, (old.ref + 1) % WORD⟩))) := by
  unfold enqueue_iter
  simp only []
  split
  · exact ⟨fun _ h => by simp at h, fun _ _ h => by simp at h⟩
  · rename_i old hold
    split
    · rename_i h; exact absurd rfl h
    · split
      · split
        · exact ⟨fun _ h => by simp at h, fun _ _ h => by simp at h⟩
        · split
          · refine ⟨fun _ h => by simp at h, fun v q1 h => ?_⟩
            simp only [Step.ret.injEq] at h
            rw [← h.2]
            exact ⟨rfl, Or.inl rfl⟩
          · refine ⟨fun q1 h => ?_, fun _ _ h => by simp at h⟩
            simp only [Step.cont.injEq] at h
            rw [← h]
            exact cas_front_fields _ _ _
      · split
        · rename_i hptr
          split
          · exact ⟨fun _ h => by simp at h, fun _ _ h => by simp at h⟩
          · rename_i q2 hcas
            refine ⟨fun _ h => by simp at h, fun v q1 h => ?_⟩
            simp only [Step.ret.injEq] at h
            rw [← h.2]
            rcases cas_slot_result hcas with ⟨hb, _⟩ | ⟨_, a, he, ha, hq2⟩
            · simp at hb
            · have hf := cas_rear_fields q2 q.rear ((q.rear + 1) % WORD)
              rw [hf.1, hf.2, hq2]
              exact ⟨rfl, Or.inr ⟨a, old, he, ha, hptr, rfl⟩⟩
          · rename_i q2 hcas
            refine ⟨fun q1 h => ?_, fun _ _ h => by simp at h⟩
            simp only [Step.cont.injEq] at h
            rw [← h]
            rcases cas_slot_result hcas with ⟨_, hq⟩ | ⟨hb, _⟩
            · rw [hq]; exact ⟨rfl, rfl⟩
            · simp at hb
        · split
          · exact ⟨fun _ h => by simp at h, fun _ _ h => by simp at h⟩
          · split
            · refine ⟨fun q1 h => ?_, fun _ _ h => by simp at h⟩
              simp only [Step.cont.injEq] at h
              rw [← h]
              exact cas_rear_fields _ _ _
            · refine ⟨fun q1 h => ?_, fun _ _ h => by simp at h⟩
              simp only [Step.cont.injEq] at h
              rw [← h]
              exact ⟨rfl, rfl⟩

theorem dequeue_iter_writes (q : lfq_t) :
    (∀ q1, dequeue_iter q = Step.cont q1 → q1.e = q.e ∧ q1.depth = q.depth) ∧
    (∀ v q1, dequeue_iter q = Step.ret v q1 → q1.depth = q.depth ∧
      (q1.e = q.e ∨ ∃ a old, q.e = some a ∧ a[q.front % q.depth]? = some old ∧ old.ptr ≠ 0 ∧
        q1.e = some (a.set (q.front % q.depth) ⟨0, (old.ref + 1) % WORD⟩))) := by
  unfold dequeue_iter
  simp only []
  split
  · exact ⟨fun _ h => by simp at h, fun _ _ h => by simp at h⟩
  · rename_i old hold
    split
    · rename_i h; exact absurd rfl h
    · split
      · split
        · exact ⟨fun _ h => by simp at h, fun _ _ h => by simp at h⟩
        · split
          · refine ⟨fun _ h => by simp at h, fun v q1 h => ?_⟩
            simp only [Step.ret.injEq] at h
            rw [← h.2]
            exact ⟨rfl, Or.inl rfl⟩
          · refine ⟨fun q1 h => ?_, fun _ _ h => by simp at h⟩
            simp only [Step.cont.injEq] at h
            rw [← h]
            exact cas_rear_fields _ _ _
      · split
        · rename_i hptr
          split
          · exact ⟨fun _ h => by simp at h, fun _ _ h => by simp at h⟩
          · rename_i q2 hcas
            refine ⟨fun _ h => by simp at h, fun v q1 h => ?_⟩
            simp only [Step.ret.injEq] at h
            rw [← h.2]
            rcases cas_slot_result hcas with ⟨hb, _⟩ | ⟨_, a, he, ha, hq2⟩
            · simp at hb
            · have hf := cas_front_fields q2 q.front ((q.front + 1) % WORD)
              rw [hf.1, hf.2, hq2]
              exact ⟨rfl, Or.inr ⟨a, old, he, ha, hptr, rfl⟩⟩
          · rename_i q2 hcas
            refine ⟨fun q1 h => ?_, fun _ _ h => by simp at h⟩
            simp only [Step.cont.injEq] at h
            rw [← h]
            rcases cas_slot_result hcas with ⟨_, hq⟩ | ⟨hb, _⟩
            · rw [hq]; exact ⟨rfl, rfl⟩
            · simp at hb
        · split
          · exact ⟨fun _ h => by simp at h, fun _ _ h => by simp at h⟩
          · split
            · refine ⟨fun q1 h => ?_, fun _ _ h => by simp at h⟩
              simp only [Step.cont.injEq] at h
              rw [← h]
              exact cas_front_fields _ _ _
            · refine ⟨fun q1 h => ?_, fun _ _ h => by simp at h⟩
              simp only [Step.cont.injEq] at h
              rw [← h]
              exact ⟨rfl, rfl⟩

/-- A returning call of `lfq_enqueue` writes at most one slot, once: an empty
slot receives the payload and its stamp plus one. -/
theorem lfq_enqueue_writes (data : Nat) : ∀ (fuel : Nat) (q : lfq_t) (v : Nat) (q1 : lfq_t),
    lfq_enqueue fuel q data = Res.ret v q1 → q1.depth = q.depth ∧
      (q1.e = q.e ∨ ∃ a i old, q.e = some a ∧ a[i]? = some old ∧ old.ptr = 0 ∧
        q1.e = some (a.set i ⟨data, (old.ref + 1) % WORD⟩)) := by
  intro fuel
  induction fuel with
  | zero => intro q v q1 h; simp [lfq_enqueue] at h
  | succ n ih =>
    intro q v q1 h
    simp only [lfq_enqueue] at h
    cases hit : enqueue_iter q data with
    | ret v2 q2 =>
      rw [hit] at h
      simp only [Res.ret.injEq] at h
      obtain ⟨hv, hq⟩ := h
      subst hv; subst hq
      obtain ⟨hdep, hw⟩ := (enqueue_iter_writes q data).2 _ _ hit
      refine ⟨hdep, ?_⟩
      rcases hw with hw | ⟨a, old, he, ha, hp, hq1⟩
      · exact Or.inl hw
      · exact Or.inr ⟨a, _, old, he, ha, hp, hq1⟩
    | cont q2 =>
      rw [hit] at h
      obtain ⟨he2, hd2⟩ := (enqueue_iter_writes q data).1 _ hit
      obtain ⟨hdep, hw⟩ := ih q2 v q1 h
      rw [he2] at hw
      exact ⟨hdep.trans hd2, hw⟩
    | trap =>
      rw [hit] at h
      simp at h

/-- A returning call of `lfq_dequeue` writes at most one slot, once: an
occupied slot receives `NULL` and its stamp plus one. -/
theorem lfq_dequeue_writes : ∀ (fuel : Nat) (q : lfq_t) (v : Nat) (q1 : lfq_t),
    lfq_dequeue fuel q = Res.ret v q1 → q1.depth = q.depth ∧
      (q1.e = q.e ∨ ∃ a i old, q.e = some a ∧ a[i]? = some old ∧ old.ptr ≠ 0 ∧
        q1.e = some (a.set i ⟨0, (old.ref + 1) % WORD⟩)) := by
  intro fuel
  induction fuel with
  | zero => intro q v q1 h; simp [lfq_dequeue] at h
  | succ n ih =>
    intro q v q1 h
    simp only [lfq_dequeue] at h
    cases hit : dequeue_iter q with
    | ret v2 q2 =>
      rw [hit] at h
      simp only [Res.ret.injEq] at h
      obtain ⟨hv, hq⟩ := h
      subst hv; subst hq
      obtain ⟨hdep, hw⟩ := (dequeue_iter_writes q).2 _ _ hit
      refine ⟨hdep, ?_⟩
      rcases hw with hw | ⟨a, old, he, ha, hp, hq1⟩
      · exact Or.inl hw
      · exact Or.inr ⟨a, _, old, he, ha, hp, hq1⟩
    | cont q2 =>
      rw [hit] at h
      obtain ⟨he2, hd2⟩ := (dequeue_iter_writes q).1 _ hit
      obtain ⟨hdep, hw⟩ := ih q2 v q1 h
      rw [he2] at hw
      exact ⟨hdep.trans hd2, hw⟩
    | trap =>
      rw [hit] at h
      simp at h

theorem set_slotwise (a : List element_t) (i : Nat) (old new : element_t)
    (ha : a[i]? = some old) (hn : new.ref = (old.ref + 1) % WORD) :
    ∀ (j : Nat) (s s1 : element_t), a[j]? = some s → (a.set i new)[j]? = some s1 →
      s1 = s ∨ s1.ref = (s.ref + 1) % WORD := by
  intro j s s1 hs hs1
  rw [List.getElem?_set] at hs1
  by_cases hij : i = j
  · subst hij
    rw [if_pos rfl] at hs1
    split at hs1
    · simp only [Option.some.injEq] at hs1
      rw [ha] at hs
      simp only [Option.some.injEq] at hs
      right
      rw [← hs1, ← hs, hn]
    · simp at hs1
  · rw [if_neg hij, hs] at hs1
    simp only [Option.some.injEq] at hs1
    exact Or.inl hs1.symm

/-- C15: a returning call of `lfq_enqueue` or `lfq_dequeue` either leaves the
slot array as it was or has written exactly one slot, once, and that write set
the stamp to the previous stamp plus one modulo `2 ^ 64`; so every slot is
either unchanged, payload and stamp, or has its stamp incremented by one. -/
theorem stamp_increment (q q1 : lfq_t) (a : List element_t) (fuel data v : Nat)
    (he : q.e = some a)
    (hret : lfq_enqueue fuel q data = Res.ret v q1 ∨ lfq_dequeue fuel q = Res.ret v q1) :
    ∃ a1, q1.e = some a1 ∧
      (a1 = a ∨ ∃ i old new, a[i]? = some old ∧ new.ref = (old.ref + 1) % WORD ∧
        a1 = a.set i new) ∧
      a1.length = a.length ∧
      ∀ (j : Nat) (s s1 : element_t), a[j]? = some s → a1[j]? = some s1 →
        s1 = s ∨ s1.ref = (s.ref + 1) % WORD := by
  have key : q1.e = q.e ∨ ∃ a0 i old new, q.e = some a0 ∧ a0[i]? = some old ∧
      new.ref = (old.ref + 1) % WORD ∧ q1.e = some (a0.set i new) := by
    rcases hret with h | h
    · rcases (lfq_enqueue_writes data fuel q v q1 h).2 with hw | ⟨a0, i, old, h1, h2, _, h4⟩
      · exact Or.inl hw
      · exact Or.inr ⟨a0, i, old, _, h1, h2, rfl, h4⟩
    · rcases (lfq_dequeue_writes fuel q v q1 h).2 with hw | ⟨a0, i, old, h1, h2, _, h4⟩
      · exact Or.inl hw
      · exact Or.inr ⟨a0, i, old, _, h1, h2, rfl, h4⟩
  rcases key with hw | ⟨a0, i, old, new, h1, h2, h3, h4⟩
  · refine ⟨a, by rw [hw, he], Or.inl rfl, rfl, ?_⟩
    intro j s s1 hs hs1
    rw [hs] at hs1
    simp only [Option.some.injEq] at hs1
    exact Or.inl hs1.symm
  · rw [he] at h1
    simp only [Option.some.injEq] at h1
    subst h1
    exact ⟨a.set i new, h4, Or.inr ⟨i, old, new, h2, h3, rfl⟩, by simp,
      set_slotwise a i old new h2 h3⟩

theorem stamp_increment_witness :
    (⟨2, some [⟨0, 0⟩, ⟨0, 0⟩], 0, 0⟩ : lfq_t).e = some [⟨0, 0⟩, ⟨0, 0⟩] ∧
    (lfq_enqueue 1 ⟨2, some [⟨0, 0⟩, ⟨0, 0⟩], 0, 0⟩ 5
        = Res.ret 1 ⟨2, some [⟨5, 1⟩, ⟨0, 0⟩], 1, 0⟩ ∨
      lfq_dequeue 1 ⟨2, some [⟨0, 0⟩, ⟨0, 0⟩], 0, 0⟩
        = Res.ret 1 ⟨2, some [⟨5, 1⟩, ⟨0, 0⟩], 1, 0⟩) ∧
    ∃ a1, (⟨2, some [⟨5, 1⟩, ⟨0, 0⟩], 1, 0⟩ : lfq_t).e = some a1 ∧
      (a1 = [⟨0, 0⟩, ⟨0, 0⟩] ∨ ∃ i old new, [(⟨0, 0⟩ : element_t), ⟨0, 0⟩][i]? = some old ∧
        new.ref = (old.ref + 1) % WORD ∧ a1 = [(⟨0, 0⟩ : element_t), ⟨0, 0⟩].set i new) ∧
      a1.length = [(⟨0, 0⟩ : element_t), ⟨0, 0⟩].length ∧
      ∀ (j : Nat) (s s1 : element_t), [(⟨0, 0⟩ : element_t), ⟨0, 0⟩][j]? = some s →
        a1[j]? = some s1 → s1 = s ∨ s1.ref = (s.ref + 1) % WORD :=
  ⟨rfl, Or.inl rfl,
    stamp_increment ⟨2, some [⟨0, 0⟩, ⟨0, 0⟩], 0, 0⟩ ⟨2, some [⟨5, 1⟩, ⟨0, 0⟩], 1, 0⟩
      [⟨0, 0⟩, ⟨0, 0⟩] 1 5 1 rfl (Or.inl rfl)⟩

/-! ## Stamp parity -/

theorem parity_set (a : List element_t) (i : Nat) (new : element_t)
    (hpar : ∀ s ∈ a, (s.ptr ≠ 0 ↔ s.ref % 2 = 1))
    (hnew : new.ptr ≠ 0 ↔ new.ref % 2 = 1) :
    ∀ s ∈ a.set i new, (s.ptr ≠ 0 ↔ s.ref % 2 = 1) := by
  intro s hs
  rcases List.mem_or_eq_of_mem_set hs with h | h
  · exact hpar s h
  · rw [h]; exact hnew

theorem call_parity (d fuel : Nat) (q q1 : lfq_t) (op : Op) (v : Nat)
    (hp : ∀ p ∈ payloads [op], p ≠ 0)
    (hq : ∃ a, q.e = some a ∧ a.length = d ∧ ∀ s ∈ a, (s.ptr ≠ 0 ↔ s.ref % 2 = 1))
    (hc : call fuel q op = Res.ret v q1) :
    ∃ a, q1.e = some a ∧ a.length = d ∧ ∀ s ∈ a, (s.ptr ≠ 0 ↔ s.ref % 2 = 1) := by
  obtain ⟨a, he, hlen, hpar⟩ := hq
  cases op with
  | enqueue data =>
    have hdata : data ≠ 0 := hp data (by simp [payloads])
    rcases (lfq_enqueue_writes data fuel q v q1 hc).2 with hw | ⟨a0, i, old, h1, h2, h3, h4⟩
    · exact ⟨a, by rw [hw, he], hlen, hpar⟩
    · rw [he] at h1
      simp only [Option.some.injEq] at h1
      subst h1
      refine ⟨_, h4, by simpa using hlen, parity_set a i _ hpar ?_⟩
      have hold := hpar old (List.getElem?_mem h2)
      have heven : old.ref % 2 ≠ 1 := fun h => (hold.mpr h) h3
      constructor
      · intro _
        show (old.ref + 1) % WORD % 2 = 1
        unfold WORD
        omega
      · intro _; exact hdata
  | dequeue =>
    rcases (lfq_dequeue_writes fuel q v q1 hc).2 with hw | ⟨a0, i, old, h1, h2, h3, h4⟩
    · exact ⟨a, by rw [hw, he], hlen, hpar⟩
    · rw [he] at h1
      simp only [Option.some.injEq] at h1
      subst h1
      refine ⟨_, h4, by simpa using hlen, parity_set a i _ hpar ?_⟩
      have hold := hpar old (List.getElem?_mem h2)
      have hodd : old.ref % 2 = 1 := hold.mp h3
      constructor
      · intro h; exact absurd rfl h
      · intro h
        have : (old.ref + 1) % WORD % 2 = 1 := h
        unfold WORD at this
        omega

theorem exec_parity (d fuel : Nat) : ∀ (ops : List Op) (q q1 : lfq_t) (rs : List Nat),
    (∀ p ∈ payloads ops, p ≠ 0) →
    (∃ a, q.e = some a ∧ a.length = d ∧ ∀ s ∈ a, (s.ptr ≠ 0 ↔ s.ref % 2 = 1)) →
    exec fuel q ops = some (rs, q1) →
    ∃ a, q1.e = some a ∧ a.length = d ∧ ∀ s ∈ a, (s.ptr ≠ 0 ↔ s.ref % 2 = 1) := by
  intro ops
  induction ops with
  | nil =>
    intro q q1 rs _ hq hex
    simp only [exec, Option.some.injEq, Prod.mk.injEq] at hex
    rw [← hex.2]
    exact hq
  | cons op ops ih =>
    intro q q1 rs hp hq hex
    obtain ⟨hp1, hp2⟩ := payloads_cons_ne hp
    simp only [exec] at hex
    cases hc : call fuel q op with
    | ret v q2 =>
      rw [hc] at hex
      cases hrest : exec fuel q2 ops with
      | none => simp [hrest] at hex
      | some pr =>
        obtain ⟨rs2, q3⟩ := pr
        simp only [hrest, Option.some.injEq, Prod.mk.injEq] at hex
        rw [← hex.2]
        exact ih q2 q3 rs2 hp2 (call_parity d fuel q q2 op v hp1 hq hc) hrest
    | trap => simp [hc] at hex
    | spin => simp [hc] at hex

/-- C19: in every state reached from `lfq_create(depth)` by completed calls
with non-NULL payloads, cursor wraparound or not, a slot holds a payload
exactly when its stamp is odd; a stamp that wraps from `2 ^ 64 - 1` to 0 keeps
alternating, `2 ^ 64` being even. -/
theorem occupied_iff_odd_stamp (depth : Nat) (ops : List Op) (rs : List Nat) (q : lfq_t)
    (hr : Reached depth ops rs q) :
    (∃ a, q.e = some a ∧ a.length = depth ∧ ∀ s ∈ a, (s.ptr ≠ 0 ↔ s.ref % 2 = 1)) ∧
    (∀ r, ((r + 1) % WORD) % 2 = (r + 1) % 2) := by
  obtain ⟨_, _, hp, fuel, q0, hq0, hex⟩ := hr
  constructor
  · refine exec_parity depth fuel ops q0 q rs hp ?_ hex
    simp only [lfq_create, if_true, Option.some.injEq] at hq0
    subst hq0
    refine ⟨List.replicate depth ⟨0, 0⟩, rfl, by simp, ?_⟩
    intro s hs
    rw [(List.mem_replicate.mp hs).2]
    simp
  · intro r
    unfold WORD
    omega

theorem occupied_iff_odd_stamp_witness :
    Reached 2 [Op.enqueue 5] [1] ⟨2, some [⟨5, 1⟩, ⟨0, 0⟩], 1, 0⟩ ∧
    (∃ a, (⟨2, some [⟨5, 1⟩, ⟨0, 0⟩], 1, 0⟩ : lfq_t).e = some a ∧ a.length = 2 ∧
      ∀ s ∈ a, (s.ptr ≠ 0 ↔ s.ref % 2 = 1)) ∧
    (∀ r, ((r + 1) % WORD) % 2 = (r + 1) % 2) :=
  ⟨⟨by decide, by decide, by decide, 1, ⟨2, some [⟨0, 0⟩, ⟨0, 0⟩], 0, 0⟩, rfl, rfl⟩,
    occupied_iff_odd_stamp 2 [Op.enqueue 5] [1] ⟨2, some [⟨5, 1⟩, ⟨0, 0⟩], 1, 0⟩
      ⟨by decide, by decide, by decide, 1, ⟨2, some [⟨0, 0⟩, ⟨0, 0⟩], 0, 0⟩, rfl, rfl⟩⟩

/-! ## Single-threaded runs as interleavings -/

theorem slot_null {q : lfq_t} (hd : 1 ≤ q.depth)
    (harr : ∃ a, q.e = some a ∧ a.length = q.depth ∧ ∀ x ∈ a, x.ptr = 0) (c : Nat) :
    ∃ o, slot q c = some o ∧ o.ptr = 0 := by
  obtain ⟨a, he, hlen, hnull⟩ := harr
  have hi : c % q.depth < a.length := by rw [hlen]; exact Nat.mod_lt _ hd
  refine ⟨a[c % q.depth], ?_, hnull _ (List.getElem_mem _)⟩
  rw [slot_of_array he hd, List.getElem?_eq_getElem hi]

/-- While every slot is empty, a step of a thread inside `lfq_dequeue` is
always defined, writes no slot, and does not return. -/
theorem thread_step_spin {q : lfq_t} {t : thread_t} (hd : 1 ≤ q.depth)
    (harr : ∃ a, q.e = some a ∧ a.length = q.depth ∧ ∀ x ∈ a, x.ptr = 0)
    (hok : spin_ok t) (hpc : t.pc ≠ Pc.idle) :
    ∃ q1 t1, thread_step q t Act.step = some (q1, t1) ∧ q1.e = q.e ∧ q1.depth = q.depth ∧
      spin_ok t1 ∧ t1.pc ≠ Pc.idle := by
  obtain ⟨of, hof, hof0⟩ := slot_null hd harr t.front
  obtain ⟨or_, hor, hor0⟩ := slot_null hd harr t.rear
  unfold spin_ok at hok
  cases h : t.pc <;> simp only [h] at hok hpc <;> simp only [thread_step, h]
  case idle => exact absurd rfl hpc
  case d_front => exact ⟨_, _, rfl, rfl, rfl, trivial, by simp⟩
  case d_slot =>
    rw [hof]
    exact ⟨_, _, rfl, rfl, rfl, hof0, by simp⟩
  case d_rear => exact ⟨_, _, rfl, rfl, rfl, hok, by simp⟩
  case d_recheck =>
    split
    · exact ⟨_, _, rfl, rfl, rfl, trivial, by simp⟩
    · exact ⟨_, _, rfl, rfl, rfl, hok, by simp⟩
  case d_empty =>
    split
    · exact ⟨_, _, rfl, rfl, rfl, trivial, by simp⟩
    · rw [if_neg (by simp [hok])]
      exact ⟨_, _, rfl, rfl, rfl, trivial, by simp⟩
  case d_tail =>
    rw [hor]
    simp only [hor0, ne_eq, not_true_eq_false, if_false]
    exact ⟨_, _, rfl, rfl, rfl, trivial, by simp⟩
  case d_help =>
    exact ⟨_, _, rfl, (cas_rear_fields _ _ _).1, (cas_rear_fields _ _ _).2, trivial, by simp⟩
  case d_head =>
    rw [hof]
    simp only [hof0, if_true]
    exact ⟨_, _, rfl, rfl, rfl, trivial, by simp⟩
  case d_skip =>
    exact ⟨_, _, rfl, (cas_front_fields _ _ _).1, (cas_front_fields _ _ _).2, trivial, by simp⟩

theorem sys_step_spin {s s1 : sys_t} {tid : Nat} {act : Act} (h : sys_spin s)
    (hact : ∀ data, act ≠ Act.enqueue data) (hstep : sys_step s tid act = some s1) :
    sys_spin s1 ∧ ((s.threads tid).pc ≠ Pc.idle → (s1.threads tid).pc ≠ Pc.idle) := by
  obtain ⟨hd, harr, hth⟩ := h
  have key : ∃ q1 t1, s1 = ⟨q1, Function.update s.threads tid t1⟩ ∧ q1.e = s.q.e ∧
      q1.depth = s.q.depth ∧ spin_ok t1 ∧ t1.pc ≠ Pc.idle := by
    unfold sys_step at hstep
    cases act with
    | enqueue data => exact absurd rfl (hact data)
    | dequeue =>
      by_cases hpc : (s.threads tid).pc = Pc.idle
      · simp only [thread_step, hpc, if_true, Option.some.injEq] at hstep
        exact ⟨_, _, hstep.symm, rfl, rfl, trivial, by simp⟩
      · simp [thread_step, hpc] at hstep
    | step =>
      by_cases hpc : (s.threads tid).pc = Pc.idle
      · simp [thread_step, hpc] at hstep
      · obtain ⟨q1, t1, hts, he, hdp, hok, hne⟩ := thread_step_spin hd harr (hth tid) hpc
        rw [hts] at hstep
        simp only [Option.some.injEq] at hstep
        exact ⟨q1, t1, hstep.symm, he, hdp, hok, hne⟩
  obtain ⟨q1, t1, hs1, he, hdp, hok, hne⟩ := key
  subst hs1
  refine ⟨⟨?_, ?_, ?_⟩, ?_⟩
  · show 1 ≤ q1.depth
    rw [hdp]; exact hd
  · show ∃ a, q1.e = some a ∧ a.length = q1.depth ∧ ∀ x ∈ a, x.ptr = 0
    rw [he, hdp]; exact harr
  · intro tid1
    show spin_ok (Function.update s.threads tid t1 tid1)
    by_cases htid : tid1 = tid
    · subst htid
      rw [Function.update_same]
      exact hok
    · rw [Function.update_noteq htid]
      exact hth tid1
  · intro _
    show (Function.update s.threads tid t1 tid).pc ≠ Pc.idle
    rw [Function.update_same]
    exact hne

theorem sys_run_spin : ∀ (sched : List (Nat × Act)) (s s1 : sys_t),
    sys_spin s → (∀ x ∈ sched, ∀ data, x.2 ≠ Act.enqueue data) → sys_run s sched = some s1 →
    sys_spin s1 := by
  intro sched
  induction sched with
  | nil =>
    intro s s1 h _ hrun
    simp only [sys_run, Option.some.injEq] at hrun
    subst hrun
    exact h
  | cons x rest ih =>
    intro s s1 h hs hrun
    obtain ⟨tid, act⟩ := x
    simp only [sys_run] at hrun
    cases hst : sys_step s tid act with
    | none => rw [hst] at hrun; simp at hrun
    | some s2 =>
      rw [hst] at hrun
      have h2 := (sys_step_spin h (hs (tid, act) (List.mem_cons_self _ _)) hst).1
      exact ih s2 s1 h2 (fun y hy => hs y (List.mem_cons_of_mem _ hy)) hrun

theorem sys_step_spin_enabled {s : sys_t} {tid : Nat} (h : sys_spin s)
    (hpc : (s.threads tid).pc ≠ Pc.idle) :
    ∃ s1, sys_step s tid Act.step = some s1 ∧ sys_spin s1 ∧ (s1.threads tid).pc ≠ Pc.idle := by
  obtain ⟨q1, t1, hts, _⟩ := thread_step_spin h.1 h.2.1 (h.2.2 tid) hpc
  have hst : sys_step s tid Act.step = some ⟨q1, Function.update s.threads tid t1⟩ := by
    simp only [sys_step, hts]
  obtain ⟨h1, h2⟩ := sys_step_spin h (fun _ => by simp) hst
  exact ⟨_, hst, h1, h2 hpc⟩

theorem spin_forever (tid : Nat) : ∀ (n : Nat) (s : sys_t),
    sys_spin s → (s.threads tid).pc ≠ Pc.idle →
    ∃ s1, sys_run s (List.replicate n (tid, Act.step)) = some s1 ∧ sys_spin s1 ∧
      (s1.threads tid).pc ≠ Pc.idle := by
  intro n
  induction n with
  | zero => intro s h hpc; exact ⟨s, rfl, h, hpc⟩
  | succ k ih =>
    intro s h hpc
    obtain ⟨s2, hst, h2, hpc2⟩ := sys_step_spin_enabled h hpc
    obtain ⟨s3, hrun, h3, hpc3⟩ := ih s2 h2 hpc2
    refine ⟨s3, ?_, h3, hpc3⟩
    simp only [List.replicate_succ, sys_run, hst, hrun]

/-- C12 (evaluation of the code): on a queue fresh from `lfq_create(depth)`,
`depth ≥ 1`, in every interleaving in which threads only call `lfq_dequeue`,
each thread that is inside a call can always take its next step and is still
inside the call after it: the system keeps making steps and no call ever
completes. In particular a single thread that calls `lfq_dequeue` is still in
that call after any number of steps. -/
theorem dequeue_only_livelock (depth : Nat) (q0 : lfq_t) (hd : 1 ≤ depth)
    (hq : lfq_create true true depth = some q0) :
    (∀ (sched : List (Nat × Act)) (s : sys_t),
      (∀ x ∈ sched, ∀ data, x.2 ≠ Act.enqueue data) →
      sys_run (sys_start q0) sched = some s →
      ∀ tid, (s.threads tid).pc ≠ Pc.idle →
        ∃ s1, sys_step s tid Act.step = some s1 ∧ (s1.threads tid).pc ≠ Pc.idle) ∧
    (∀ n, ∃ s, sys_run (sys_start q0) ((0, Act.dequeue) :: List.replicate n (0, Act.step))
        = some s ∧ (s.threads 0).pc ≠ Pc.idle) := by
  simp only [lfq_create, if_true, Option.some.injEq] at hq
  subst hq
  have h0 : sys_spin (sys_start ⟨depth, some (List.replicate depth ⟨0, 0⟩), 0, 0⟩) := by
    refine ⟨hd, ⟨_, rfl, List.length_replicate _ _, ?_⟩, fun _ => trivial⟩
    intro x hx
    rw [(List.mem_replicate.mp hx).2]
  constructor
  · intro sched s hs hrun tid hpc
    have hsp := sys_run_spin sched _ s h0 hs hrun
    obtain ⟨s1, hst, _, hne⟩ := sys_step_spin_enabled hsp hpc
    exact ⟨s1, hst, hne⟩
  · intro n
    have hst : sys_step (sys_start ⟨depth, some (List.replicate depth ⟨0, 0⟩), 0, 0⟩) 0
        Act.dequeue = some ⟨⟨depth, some (List.replicate depth ⟨0, 0⟩), 0, 0⟩,
          Function.update (fun _ => idle_thread) 0 { idle_thread with pc := Pc.d_front }⟩ := rfl
    obtain ⟨h1, _⟩ := sys_step_spin h0 (fun _ => by simp) hst
    have hpc1 : ((Function.update (fun _ => idle_thread) 0
        { idle_thread with pc := Pc.d_front } : Nat → thread_t) 0).pc ≠ Pc.idle := by
      rw [Function.update_same]; simp
    obtain ⟨s3, hrun, _, hpc3⟩ := spin_forever 0 n _ h1 hpc1
    refine ⟨s3, ?_, hpc3⟩
    simp only [sys_run, hst, hrun]

theorem dequeue_only_livelock_witness :
    1 ≤ 1 ∧ lfq_create true true 1 = some ⟨1, some [⟨0, 0⟩], 0, 0⟩ ∧
    (∀ (sched : List (Nat × Act)) (s : sys_t),
      (∀ x ∈ sched, ∀ data, x.2 ≠ Act.enqueue data) →
      sys_run (sys_start ⟨1, some [⟨0, 0⟩], 0, 0⟩) sched = some s →
      ∀ tid, (s.threads tid).pc ≠ Pc.idle →
        ∃ s1, sys_step s tid Act.step = some s1 ∧ (s1.threads tid).pc ≠ Pc.idle) ∧
    (∀ n, ∃ s, sys_run (sys_start ⟨1, some [⟨0, 0⟩], 0, 0⟩)
        ((0, Act.dequeue) :: List.replicate n (0, Act.step))
        = some s ∧ (s.threads 0).pc ≠ Pc.idle) :=
  ⟨by decide, rfl, dequeue_only_livelock 1 ⟨1, some [⟨0, 0⟩], 0, 0⟩ (by decide) rfl⟩

/-! ## The cursor window in 64-bit arithmetic -/

theorem window_rear {q : lfq_t} (h : window q) (o : Nat)
    (hne : q.rear = o → o ≠ (q.front + q.depth) % WORD ∨ q.front = q.rear) :
    window (cas_rear q o ((o + 1) % WORD)) := by
  unfold cas_rear
  split
  · rename_i ho
    have := hne ho
    subst ho
    obtain ⟨h1, h2, h3, h4⟩ := h
    refine ⟨h1, Nat.mod_lt _ (by unfold WORD; omega), h3, ?_⟩
    show ((q.rear + 1) % WORD + WORD - q.front) % WORD ≤ q.depth
    unfold WORD at *
    omega
  · exact h

theorem window_front {q : lfq_t} (h : window q) (o : Nat)
    (hne : q.front = o → q.rear = (o + q.depth) % WORD ∨ o ≠ q.rear) :
    window (cas_front q o ((o + 1) % WORD)) := by
  unfold cas_front
  split
  · rename_i ho
    have := hne ho
    subst ho
    obtain ⟨h1, h2, h3, h4⟩ := h
    refine ⟨h1, h2, Nat.mod_lt _ (by unfold WORD; omega), ?_⟩
    show (q.rear + WORD - (q.front + 1) % WORD) % WORD ≤ q.depth
    unfold WORD at *
    omega
  · exact h

theorem window_slot {q q1 : lfq_t} {c : Nat} {o n : element_t} {b : Bool}
    (h : window q) (hc : cas_slot q c o n = some (b, q1)) : window q1 := by
  rcases cas_slot_result hc with ⟨_, hq⟩ | ⟨_, a, _, _, hq⟩
  · rw [hq]; exact h
  · rw [hq]; exact h


theorem enqueue_iter_window {q : lfq_t} (data : Nat) (hw : window q) :
    (∀ q1, enqueue_iter q data = Step.cont q1 → window q1) ∧
    (∀ v q1, enqueue_iter q data = Step.ret v q1 → window q1) := by
  unfold enqueue_iter
  simp only []
  split
  · exact ⟨fun _ h => by simp at h, fun _ _ h => by simp at h⟩
  · split
    · rename_i h; exact absurd rfl h
    · split
      · rename_i hfull
        split
        · exact ⟨fun _ h => by simp at h, fun _ _ h => by simp at h⟩
        · split
          · refine ⟨fun _ h => by simp at h, fun v q1 h => ?_⟩
            simp only [Step.ret.injEq] at h
            rw [← h.2]
            exact hw
          · refine ⟨fun q1 h => ?_, fun _ _ h => by simp at h⟩
            simp only [Step.cont.injEq] at h
            rw [← h]
            exact window_front hw _ (fun _ => Or.inl hfull)
      · rename_i hfull
        split
        · split
          · exact ⟨fun _ h => by simp at h, fun _ _ h => by simp at h⟩
          · rename_i q2 hcas
            refine ⟨fun _ h => by simp at h, fun v q1 h => ?_⟩
            simp only [Step.ret.injEq] at h
            rw [← h.2]
            rcases cas_slot_result hcas with ⟨hb, _⟩ | ⟨_, a, _, _, hq2⟩
            · simp at hb
            · have hw2 : window q2 := window_slot hw hcas
              refine window_rear hw2 _ (fun _ => Or.inl ?_)
              rw [hq2]
              exact hfull
          · rename_i q2 hcas
            refine ⟨fun q1 h => ?_, fun _ _ h => by simp at h⟩
            simp only [Step.cont.injEq] at h
            rw [← h]
            exact window_slot hw hcas
        · split
          · exact ⟨fun _ h => by simp at h, fun _ _ h => by simp at h⟩
          · split
            · refine ⟨fun q1 h => ?_, fun _ _ h => by simp at h⟩
              simp only [Step.cont.injEq] at h
              rw [← h]
              exact window_rear hw _ (fun _ => Or.inl hfull)
            · refine ⟨fun q1 h => ?_, fun _ _ h => by simp at h⟩
              simp only [Step.cont.injEq] at h
              rw [← h]
              exact hw

theorem dequeue_iter_window {q : lfq_t} (hw : window q) :
    (∀ q1, dequeue_iter q = Step.cont q1 → window q1) ∧
    (∀ v q1, dequeue_iter q = Step.ret v q1 → window q1) := by
  unfold dequeue_iter
  simp only []
  split
  · exact ⟨fun _ h => by simp at h, fun _ _ h => by simp at h⟩
  · split
    · rename_i h; exact absurd rfl h
    · split
      · rename_i hempty
        split
        · exact ⟨fun _ h => by simp at h, fun _ _ h => by simp at h⟩
        · split
          · refine ⟨fun _ h => by simp at h, fun v q1 h => ?_⟩
            simp only [Step.ret.injEq] at h
            rw [← h.2]
            exact hw
          · refine ⟨fun q1 h => ?_, fun _ _ h => by simp at h⟩
            simp only [Step.cont.injEq] at h
            rw [← h]
            exact window_rear hw _ (fun _ => Or.inr hempty)
      · rename_i hempty
        split
        · split
          · exact ⟨fun _ h => by simp at h, fun _ _ h => by simp at h⟩
          · rename_i q2 hcas
            refine ⟨fun _ h => by simp at h, fun v q1 h => ?_⟩
            simp only [Step.ret.injEq] at h
            rw [← h.2]
            rcases cas_slot_result hcas with ⟨hb, _⟩ | ⟨_, a, _, _, hq2⟩
            · simp at hb
            · have hw2 : window q2 := window_slot hw hcas
              refine window_front hw2 _ (fun _ => Or.inr ?_)
              rw [hq2]
              exact hempty
          · rename_i q2 hcas
            refine ⟨fun q1 h => ?_, fun _ _ h => by simp at h⟩
            simp only [Step.cont.injEq] at h
            rw [← h]
            exact window_slot hw hcas
        · split
          · exact ⟨fun _ h => by simp at h, fun _ _ h => by simp at h⟩
          · split
            · refine ⟨fun q1 h => ?_, fun _ _ h => by simp at h⟩
              simp only [Step.cont.injEq] at h
              rw [← h]
              exact window_front hw _ (fun _ => Or.inr hempty)
            · refine ⟨fun q1 h => ?_, fun _ _ h => by simp at h⟩
              simp only [Step.cont.injEq] at h
              rw [← h]
              exact hw

theorem lfq_enqueue_window (data : Nat) : ∀ (fuel : Nat) (q : lfq_t) (v : Nat) (q1 : lfq_t),
    window q → lfq_enqueue fuel q data = Res.ret v q1 → window q1 := by
  intro fuel
  induction fuel with
  | zero => intro q v q1 _ h; simp [lfq_enqueue] at h
  | succ n ih =>
    intro q v q1 hw h
    simp only [lfq_enqueue] at h
    cases hit : enqueue_iter q data with
    | ret v2 q2 =>
      rw [hit] at h
      simp only [Res.ret.injEq] at h
      rw [← h.2]
      exact (enqueue_iter_window data hw).2 _ _ hit
    | cont q2 =>
      rw [hit] at h
      exact ih q2 v q1 ((enqueue_iter_window data hw).1 _ hit) h
    | trap =>
      rw [hit] at h
      simp at h

theorem lfq_dequeue_window : ∀ (fuel : Nat) (q : lfq_t) (v : Nat) (q1 : lfq_t),
    window q → lfq_dequeue fuel q = Res.ret v q1 → window q1 := by
  intro fuel
  induction fuel with
  | zero => intro q v q1 _ h; simp [lfq_dequeue] at h
  | succ n ih =>
    intro q v q1 hw h
    simp only [lfq_dequeue] at h
    cases hit : dequeue_iter q with
    | ret v2 q2 =>
      rw [hit] at h
      simp only [Res.ret.injEq] at h
      rw [← h.2]
      exact (dequeue_iter_window hw).2 _ _ hit
    | cont q2 =>
      rw [hit] at h
      exact ih q2 v q1 ((dequeue_iter_window hw).1 _ hit) h
    | trap =>
      rw [hit] at h
      simp at h

theorem exec_window (fuel : Nat) : ∀ (ops : List Op) (q : lfq_t) (rs : List Nat) (q1 : lfq_t),
    window q → exec fuel q ops = some (rs, q1) → window q1 := by
  intro ops
  induction ops with
  | nil =>
    intro q rs q1 hw h
    simp only [exec, Option.some.injEq, Prod.mk.injEq] at h
    rw [← h.2]
    exact hw
  | cons op rest ih =>
    intro q rs q1 hw h
    simp only [exec] at h
    cases hc : call fuel q op with
    | ret v q2 =>
      rw [hc] at h
      simp only [] at h
      have hw2 : window q2 := by
        cases op with
        | enqueue data => exact lfq_enqueue_window data fuel q v q2 hw hc
        | dequeue => exact lfq_dequeue_window fuel q v q2 hw hc
      cases hx : exec fuel q2 rest with
      | none => rw [hx] at h; simp at h
      | some p =>
        obtain ⟨rs2, q3⟩ := p
        rw [hx] at h
        simp only [Option.some.injEq, Prod.mk.injEq] at h
        rw [← h.2]
        exact ih q2 rs2 q3 hw2 hx
    | trap => rw [hc] at h; simp at h
    | spin => rw [hc] at h; simp at h

theorem reached_window {depth : Nat} {ops : List Op} {rs : List Nat} {q : lfq_t}
    (hr : Reached depth ops rs q) : window q := by
  obtain ⟨hd, _, _, fuel, q0, hq0, hex⟩ := hr
  refine exec_window fuel ops q0 rs q ?_ hex
  simp only [lfq_create, if_true, Option.some.injEq] at hq0
  rw [← hq0]
  exact ⟨hd, (by decide : 0 < WORD), (by decide : 0 < WORD), by simp⟩

/-- C13 (amended): in every state reached from `lfq_create(depth)`, `depth ≥
1`, by completed calls, `rear ≤ front + depth` holds and the 64-bit difference
`rear - front` is at most `depth`; and if fewer than `2 ^ 64` of the calls are
enqueues then also `front ≤ rear`. -/
theorem cursor_window (depth : Nat) (ops : List Op) (rs : List Nat) (q : lfq_t)
    (hr : Reached depth ops rs q) :
    q.rear ≤ q.front + q.depth ∧
    (q.rear + WORD - q.front) % WORD ≤ q.depth ∧
    ((payloads ops).length < WORD → q.front ≤ q.rear) := by
  have hw := reached_window hr
  refine ⟨?_, hw.2.2.2, ?_⟩
  · obtain ⟨_, h2, h3, h4⟩ := hw
    unfold WORD at *
    omega
  · intro hn
    obtain ⟨R, F, habs, hR⟩ := reached_abs_count hr hn
    obtain ⟨_, _, h1, h2, h3, _⟩ := habs
    rw [h1, h2, Nat.mod_eq_of_lt hR, Nat.mod_eq_of_lt (by omega : F < WORD)]
    omega

theorem cursor_window_witness :
    Reached 2 [Op.enqueue 5, Op.enqueue 7, Op.enqueue 9, Op.dequeue, Op.enqueue 9]
      [1, 1, 0, 5, 1] ⟨2, some [⟨9, 3⟩, ⟨7, 1⟩], 3, 1⟩ ∧
    (3 : Nat) ≤ 1 + 2 ∧ (3 + WORD - 1) % WORD ≤ 2 ∧
    ((payloads [Op.enqueue 5, Op.enqueue 7, Op.enqueue 9, Op.dequeue, Op.enqueue 9]).length
        < WORD → (1 : Nat) ≤ 3) :=
  ⟨⟨by decide, by decide, by decide, 1, ⟨2, some [⟨0, 0⟩, ⟨0, 0⟩], 0, 0⟩, rfl, rfl⟩,
    cursor_window 2 [Op.enqueue 5, Op.enqueue 7, Op.enqueue 9, Op.dequeue, Op.enqueue 9]
      [1, 1, 0, 5, 1] ⟨2, some [⟨9, 3⟩, ⟨7, 1⟩], 3, 1⟩
      ⟨by decide, by decide, by decide, 1, ⟨2, some [⟨0, 0⟩, ⟨0, 0⟩], 0, 0⟩, rfl, rfl⟩⟩

end Lfq
